import Mathlib

/-!
# arc-blog: the `fetch` command handler

A shallow embedding of `internal/cmd/root.go` (`fetchCmd`, the `RunE` closure) together
with the parts of the Go standard library the handler calls on its JSON branch
(`unicode/utf8`, `encoding/json`: string quoting, map marshalling, the scanner and
`appendIndent`), followed by the properties of the handler.

Conventions of the embedding

* A Go `string` is a list of bytes; a byte is a natural number below 256.  No definition
  below ever produces a number of 256 or more from bytes, and the theorems hold for every
  list, in particular for every list of bytes.
* Bit operations of the Go code on bytes are written arithmetically
  (`x & 0x3F` is `x % 64`, `x << 6` is `x * 64`, `x >> 4` is `x / 16`).
* `cmd.OutOrStdout()` is a write-only stream.  `RunE` is the handler on a stream that
  accepts every write; `RunEOn` is the handler on an arbitrary `io.Writer`, whose
  `Write` may accept only part of a buffer and report an error.
* The handler returns a Go `error`; `none` stands for `nil`.
* `encoding/json` is modelled as of Go 1.22 and later, where the string encoder writes
  the two-character escapes for backspace and form feed.
* `gopkg.in/yaml.v3` is not modelled: the YAML branch is recorded as the write of the
  document for the map it hands to the encoder; `RunE` takes the encoder to report no
  error, `RunEOn` leaves what it returns unread.
* A loop of the Go code that advances by a computed number of bytes is a function with
  a fuel argument, called with the length of its input; the theorems about such a
  function are about the result it gives with that fuel.
-/

namespace ArcBlog

/-- A Go string: a finite sequence of bytes. -/
abbrev Bytes := List Nat

/-- The UTF-8 bytes of a string literal of the source. -/
def lit (s : String) : Bytes :=
  s.data.flatMap (fun c => (String.utf8EncodeChar c).map UInt8.toNat)

/-! ## unicode/utf8 -/

namespace utf8

/-- The "error" rune U+FFFD. -/
def RuneError : Nat := 0xFFFD

/-- Characters below `RuneSelf` are represented as themselves in a single byte. -/
def RuneSelf : Nat := 0x80

/-- Maximum number of bytes of a UTF-8 encoded character. -/
def UTFMax : Nat := 4

/-- Go `utf8.DecodeRuneInString`: the first rune of `s` and its width in bytes;
`(RuneError, 0)` for the empty string and `(RuneError, 1)` for an invalid encoding.
The table `first` and `acceptRanges` of the Go source are written out as the ranges
they encode. -/
def DecodeRuneInString (s : Bytes) : Nat × Nat :=
  match s with
  | [] => (RuneError, 0)
  | s0 :: t =>
    if s0 < RuneSelf then (s0, 1)
    else if s0 < 0xC2 ∨ 0xF4 < s0 then (RuneError, 1)
    else
      let sz := if s0 < 0xE0 then 2 else if s0 < 0xF0 then 3 else 4
      let lo := if s0 = 0xE0 then 0xA0 else if s0 = 0xF0 then 0x90 else 0x80
      let hi := if s0 = 0xED then 0x9F else if s0 = 0xF4 then 0x8F else 0xBF
      if t.length + 1 < sz then (RuneError, 1)
      else
        match t with
        | [] => (RuneError, 1)
        | s1 :: t1 =>
          if s1 < lo ∨ hi < s1 then (RuneError, 1)
          else if sz ≤ 2 then ((s0 % 32) * 64 + s1 % 64, 2)
          else
            match t1 with
            | [] => (RuneError, 1)
            | s2 :: t2 =>
              if s2 < 0x80 ∨ 0xBF < s2 then (RuneError, 1)
              else if sz ≤ 3 then ((s0 % 16) * 4096 + (s1 % 64) * 64 + s2 % 64, 3)
              else
                match t2 with
                | [] => (RuneError, 1)
                | s3 :: _ =>
                  if s3 < 0x80 ∨ 0xBF < s3 then (RuneError, 1)
                  else ((s0 % 8) * 262144 + (s1 % 64) * 4096 + (s2 % 64) * 64 + s3 % 64, 4)

/-- The loop of Go `utf8.ValidString`, written with `DecodeRuneInString`: the string
is invalid exactly when some rune start decodes to `(RuneError, 1)`. -/
def ValidStringLoop : Nat → Bytes → Bool
  | 0, s => s.isEmpty
  | _ + 1, [] => true
  | fuel + 1, b :: rest =>
    if b < RuneSelf then ValidStringLoop fuel rest
    else
      let size := (DecodeRuneInString (b :: rest)).2
      if (DecodeRuneInString (b :: rest)).1 = RuneError ∧ size = 1 then false
      else ValidStringLoop fuel ((b :: rest).drop size)

/-- Go `utf8.ValidString`: `s` consists entirely of valid UTF-8 encoded runes. -/
def ValidString (s : Bytes) : Bool := ValidStringLoop s.length s

/-- Go `utf8.AppendRune` on an empty buffer: the UTF-8 encoding of the rune `r`;
a surrogate or a value above U+10FFFF is encoded as U+FFFD. -/
def EncodeRune (r : Nat) : Bytes :=
  if r < 0x80 then [r]
  else if r < 0x800 then [0xC0 + r / 64, 0x80 + r % 64]
  else if 0x10FFFF < r ∨ (0xD800 ≤ r ∧ r ≤ 0xDFFF) then [0xEF, 0xBF, 0xBD]
  else if r < 0x10000 then [0xE0 + r / 4096, 0x80 + r / 64 % 64, 0x80 + r % 64]
  else [0xF0 + r / 262144, 0x80 + r / 4096 % 64, 0x80 + r / 64 % 64, 0x80 + r % 64]

end utf8

/-! ## encoding/json: encoding -/

namespace json

/-- The digits `hex = "0123456789abcdef"` of the encoder, indexed by a nibble. -/
def hex (n : Nat) : Nat := if n < 10 then 0x30 + n else 0x61 + (n - 10)

/-- Go `htmlSafeSet`: the ASCII bytes that are copied into a JSON string unescaped
when HTML escaping is on (the Encoder's default): every byte from space to DEL
except the double quote, ampersand, less-than, greater-than and the backslash. -/
def htmlSafeSet (b : Nat) : Bool :=
  decide (0x20 ≤ b) && decide (b < 0x80) &&
    b != 0x22 && b != 0x26 && b != 0x3c && b != 0x3e && b != 0x5c

/-- The loop of Go `appendString` (with `escapeHTML = true`) from position `i` on,
given the rest `src[i:]` of the string; the fuel bounds the number of iterations,
each of which consumes at least one byte. -/
def appendStringLoop : Nat → Bytes → Bytes
  | 0, _ => []
  | _ + 1, [] => []
  | fuel + 1, b :: rest =>
    if b < utf8.RuneSelf then
      if htmlSafeSet b then b :: appendStringLoop fuel rest
      else if b = 0x5c ∨ b = 0x22 then 0x5c :: b :: appendStringLoop fuel rest
      else if b = 0x08 then 0x5c :: 0x62 :: appendStringLoop fuel rest
      else if b = 0x0c then 0x5c :: 0x66 :: appendStringLoop fuel rest
      else if b = 0x0a then 0x5c :: 0x6e :: appendStringLoop fuel rest
      else if b = 0x0d then 0x5c :: 0x72 :: appendStringLoop fuel rest
      else if b = 0x09 then 0x5c :: 0x74 :: appendStringLoop fuel rest
      else 0x5c :: 0x75 :: 0x30 :: 0x30 :: hex (b / 16) :: hex (b % 16) ::
        appendStringLoop fuel rest
    else
      let c := (utf8.DecodeRuneInString ((b :: rest).take utf8.UTFMax)).1
      let size := (utf8.DecodeRuneInString ((b :: rest).take utf8.UTFMax)).2
      if c = utf8.RuneError ∧ size = 1 then
        0x5c :: 0x75 :: 0x66 :: 0x66 :: 0x66 :: 0x64 :: appendStringLoop fuel rest
      else if c = 0x2028 ∨ c = 0x2029 then
        0x5c :: 0x75 :: 0x32 :: 0x30 :: 0x32 :: hex (c % 16) ::
          appendStringLoop fuel ((b :: rest).drop size)
      else (b :: rest).take size ++ appendStringLoop fuel ((b :: rest).drop size)

/-- Go `appendString(dst, src, true)` on an empty `dst`: `src` as a JSON string. -/
def appendString (src : Bytes) : Bytes :=
  0x22 :: (appendStringLoop src.length src ++ [0x22])

end json

/-- The dynamic values the handler stores in its `map[string]any`. -/
inductive GoAny where
  | string (s : Bytes)
  | bool (b : Bool)
  deriving DecidableEq, Repr

/-- A Go `map[string]any`, as the list of its entries; the map has no order of its
own, so a list stands for the map it is a permutation of. -/
abbrev GoMap := List (Bytes × GoAny)

namespace json

/-- Go `strings.Compare(a, b) <= 0`: bytewise lexicographic order. -/
def stringsLE : Bytes → Bytes → Bool
  | [], _ => true
  | _ :: _, [] => false
  | a :: x, b :: y => decide (a < b) || (a == b && stringsLE x y)

/-- The order `mapEncoder.encode` sorts the entries in: by key. -/
def keyLE (a b : Bytes × GoAny) : Prop := stringsLE a.1 b.1 = true

instance : DecidableRel keyLE := fun a b => inferInstanceAs (Decidable (stringsLE a.1 b.1 = true))

/-- The value encoder reached through `interfaceEncoder`: `stringEncoder` for a
string, `boolEncoder` for a boolean. -/
def encodeValue : GoAny → Bytes
  | .string s => appendString s
  | .bool true => lit "true"
  | .bool false => lit "false"

/-- The loop of `mapEncoder.encode` over the sorted entries, `i` being zero exactly
when `first` holds. -/
def encodeMembers : Bool → GoMap → Bytes
  | _, [] => []
  | first, (k, v) :: kvs =>
    (if first then [] else [0x2c]) ++ appendString k ++ 0x3a :: encodeValue v ++
      encodeMembers false kvs

/-- Go `mapEncoder.encode` for a non-nil map: the entries sorted by key, written
compactly between braces. -/
def marshal (m : GoMap) : Bytes :=
  0x7b :: (encodeMembers true (m.insertionSort keyLE) ++ [0x7d])

end json

/-! ## encoding/json: the scanner and `appendIndent` -/

namespace json

/-- The step functions of Go's JSON `scanner` (`scanner.step` holds one of them). -/
inductive Step where
  | stateBeginValueOrEmpty | stateBeginValue | stateBeginStringOrEmpty | stateBeginString
  | stateEndValue | stateEndTop
  | stateInString | stateInStringEsc
  | stateInStringEscU | stateInStringEscU1 | stateInStringEscU12 | stateInStringEscU123
  | stateNeg | state1 | state0 | stateDot | stateDot0 | stateE | stateESign | stateE0
  | stateT | stateTr | stateTru
  | stateF | stateFa | stateFal | stateFals
  | stateN | stateNu | stateNul
  | stateError
  deriving DecidableEq, Repr

/-- The result codes of a scanner step (`scanContinue` ... `scanError`). -/
inductive Scan where
  | scanContinue | scanBeginLiteral | scanBeginObject | scanObjectKey | scanObjectValue
  | scanEndObject | scanBeginArray | scanArrayValue | scanEndArray | scanSkipSpace
  | scanEnd | scanError
  deriving DecidableEq, Repr

/-- The entries of the scanner's `parseState` stack. -/
inductive ParseState where
  | parseObjectKey | parseObjectValue | parseArrayValue
  deriving DecidableEq, Repr

/-- Go `scanner`: the current step function, whether the top-level value has ended,
the stack of open composite values (innermost first) and whether an error was met. -/
structure scanner where
  step : Step
  endTop : Bool
  parseState : List ParseState
  err : Bool
  deriving DecidableEq, Repr

/-- Nesting depth beyond which the scanner reports an error. -/
def maxNestingDepth : Nat := 10000

/-- Go `newScanner` followed by `reset`. -/
def newScanner : scanner :=
  { step := .stateBeginValue, endTop := false, parseState := [], err := false }

/-- Go `isSpace`. -/
def isSpace (c : Nat) : Bool := c == 0x20 || c == 0x09 || c == 0x0d || c == 0x0a

/-- Go `scanner.error`: record the error and move to `stateError`. -/
def scanner.error (s : scanner) : scanner × Scan :=
  ({ s with step := .stateError, err := true }, .scanError)

/-- Go `scanner.pushParseState`. -/
def scanner.pushParseState (s : scanner) (newParseState : ParseState) (successState : Scan) :
    scanner × Scan :=
  let s1 := { s with parseState := newParseState :: s.parseState }
  if s1.parseState.length ≤ maxNestingDepth then (s1, successState) else s1.error

/-- Go `scanner.popParseState`. -/
def scanner.popParseState (s : scanner) : scanner :=
  let rest := s.parseState.tail
  if rest.length = 0 then { s with parseState := rest, step := .stateEndTop, endTop := true }
  else { s with parseState := rest, step := .stateEndValue }

/-- Go `stateEndTop`: only space may follow the top-level value. -/
def stateEndTop (s : scanner) (c : Nat) : scanner × Scan :=
  if isSpace c then (s, .scanEnd) else ((s.error).1, .scanEnd)

/-- Go `stateEndValue`: the state after completing a value. -/
def stateEndValue (s : scanner) (c : Nat) : scanner × Scan :=
  match s.parseState with
  | [] => stateEndTop { s with step := .stateEndTop, endTop := true } c
  | ps :: rest =>
    if isSpace c then ({ s with step := .stateEndValue }, .scanSkipSpace)
    else
      match ps with
      | .parseObjectKey =>
        if c = 0x3a then
          ({ s with parseState := .parseObjectValue :: rest, step := .stateBeginValue },
            .scanObjectKey)
        else s.error
      | .parseObjectValue =>
        if c = 0x2c then
          ({ s with parseState := .parseObjectKey :: rest, step := .stateBeginString },
            .scanObjectValue)
        else if c = 0x7d then (s.popParseState, .scanEndObject)
        else s.error
      | .parseArrayValue =>
        if c = 0x2c then ({ s with step := .stateBeginValue }, .scanArrayValue)
        else if c = 0x5d then (s.popParseState, .scanEndArray)
        else s.error

/-- Go `stateBeginValue`: the state at the beginning of the input or of a value. -/
def stateBeginValue (s : scanner) (c : Nat) : scanner × Scan :=
  if isSpace c then (s, .scanSkipSpace)
  else if c = 0x7b then
    { s with step := .stateBeginStringOrEmpty }.pushParseState .parseObjectKey .scanBeginObject
  else if c = 0x5b then
    { s with step := .stateBeginValueOrEmpty }.pushParseState .parseArrayValue .scanBeginArray
  else if c = 0x22 then ({ s with step := .stateInString }, .scanBeginLiteral)
  else if c = 0x2d then ({ s with step := .stateNeg }, .scanBeginLiteral)
  else if c = 0x30 then ({ s with step := .state0 }, .scanBeginLiteral)
  else if c = 0x74 then ({ s with step := .stateT }, .scanBeginLiteral)
  else if c = 0x66 then ({ s with step := .stateF }, .scanBeginLiteral)
  else if c = 0x6e then ({ s with step := .stateN }, .scanBeginLiteral)
  else if 0x31 ≤ c ∧ c ≤ 0x39 then ({ s with step := .state1 }, .scanBeginLiteral)
  else s.error

/-- Go `stateBeginString`: the state after a comma in an object, before the key. -/
def stateBeginString (s : scanner) (c : Nat) : scanner × Scan :=
  if isSpace c then (s, .scanSkipSpace)
  else if c = 0x22 then ({ s with step := .stateInString }, .scanBeginLiteral)
  else s.error

/-- A hexadecimal digit, as the `\u` escape states of the scanner accept it. -/
def isHexDigit (c : Nat) : Bool :=
  (decide (0x30 ≤ c) && decide (c ≤ 0x39)) || (decide (0x61 ≤ c) && decide (c ≤ 0x66)) ||
    (decide (0x41 ≤ c) && decide (c ≤ 0x46))

/-- The states of a literal name (`true`, `false`, `null`): the expected byte moves
to `next` with `scanContinue`, any other byte is an error. -/
def expectByte (s : scanner) (c expected : Nat) (next : Step) : scanner × Scan :=
  if c = expected then ({ s with step := next }, .scanContinue) else s.error

/-- Go `state0` (after a leading zero or a digit run), `stateDot0` and `stateE0` share
their tail: the byte ends the number and is given to `stateEndValue`. -/
def numberTail (s : scanner) (c : Nat) (allowDot : Bool) : scanner × Scan :=
  if allowDot ∧ c = 0x2e then ({ s with step := .stateDot }, .scanContinue)
  else if c = 0x65 ∨ c = 0x45 then ({ s with step := .stateE }, .scanContinue)
  else stateEndValue s c

/-- A decimal digit byte. -/
def isDigit (c : Nat) : Bool := decide (0x30 ≤ c) && decide (c ≤ 0x39)

/-- One step of the scanner, `scan.step(scan, c)`: dispatch on the current step function. -/
def scanner.run (s : scanner) (c : Nat) : scanner × Scan :=
  match s.step with
  | .stateBeginValueOrEmpty =>
    if isSpace c then (s, .scanSkipSpace)
    else if c = 0x5d then stateEndValue s c
    else stateBeginValue s c
  | .stateBeginValue => stateBeginValue s c
  | .stateBeginStringOrEmpty =>
    if isSpace c then (s, .scanSkipSpace)
    else if c = 0x7d then
      stateEndValue { s with parseState := .parseObjectValue :: s.parseState.tail } c
    else stateBeginString s c
  | .stateBeginString => stateBeginString s c
  | .stateEndValue => stateEndValue s c
  | .stateEndTop => stateEndTop s c
  | .stateInString =>
    if c = 0x22 then ({ s with step := .stateEndValue }, .scanContinue)
    else if c = 0x5c then ({ s with step := .stateInStringEsc }, .scanContinue)
    else if c < 0x20 then s.error
    else (s, .scanContinue)
  | .stateInStringEsc =>
    if c = 0x62 ∨ c = 0x66 ∨ c = 0x6e ∨ c = 0x72 ∨ c = 0x74 ∨ c = 0x5c ∨ c = 0x2f ∨ c = 0x22 then
      ({ s with step := .stateInString }, .scanContinue)
    else if c = 0x75 then ({ s with step := .stateInStringEscU }, .scanContinue)
    else s.error
  | .stateInStringEscU =>
    if isHexDigit c then ({ s with step := .stateInStringEscU1 }, .scanContinue) else s.error
  | .stateInStringEscU1 =>
    if isHexDigit c then ({ s with step := .stateInStringEscU12 }, .scanContinue) else s.error
  | .stateInStringEscU12 =>
    if isHexDigit c then ({ s with step := .stateInStringEscU123 }, .scanContinue) else s.error
  | .stateInStringEscU123 =>
    if isHexDigit c then ({ s with step := .stateInString }, .scanContinue) else s.error
  | .stateNeg =>
    if c = 0x30 then ({ s with step := .state0 }, .scanContinue)
    else if 0x31 ≤ c ∧ c ≤ 0x39 then ({ s with step := .state1 }, .scanContinue)
    else s.error
  | .state1 =>
    if isDigit c then ({ s with step := .state1 }, .scanContinue) else numberTail s c true
  | .state0 => numberTail s c true
  | .stateDot =>
    if isDigit c then ({ s with step := .stateDot0 }, .scanContinue) else s.error
  | .stateDot0 =>
    if isDigit c then (s, .scanContinue) else numberTail s c false
  | .stateE =>
    if c = 0x2b ∨ c = 0x2d then ({ s with step := .stateESign }, .scanContinue)
    else if isDigit c then ({ s with step := .stateE0 }, .scanContinue)
    else s.error
  | .stateESign =>
    if isDigit c then ({ s with step := .stateE0 }, .scanContinue) else s.error
  | .stateE0 =>
    if isDigit c then (s, .scanContinue) else stateEndValue s c
  | .stateT => expectByte s c 0x72 .stateTr
  | .stateTr => expectByte s c 0x75 .stateTru
  | .stateTru => expectByte s c 0x65 .stateEndValue
  | .stateF => expectByte s c 0x61 .stateFa
  | .stateFa => expectByte s c 0x6c .stateFal
  | .stateFal => expectByte s c 0x73 .stateFals
  | .stateFals => expectByte s c 0x65 .stateEndValue
  | .stateN => expectByte s c 0x75 .stateNu
  | .stateNu => expectByte s c 0x6c .stateNul
  | .stateNul => expectByte s c 0x6c .stateEndValue
  | .stateError => (s, .scanError)

/-- Go `scanner.eof`: the result of telling the scanner that the input has ended. -/
def scanner.eof (s : scanner) : Scan :=
  if s.err then .scanError
  else if s.endTop then .scanEnd
  else if ((s.run 0x20).1).endTop then .scanEnd
  else .scanError

/-- Go `appendNewline(dst, "", "  ", depth)`: a line feed and `depth` copies of the
two-space indent the handler configures with `SetIndent("", "  ")`. -/
def appendNewline (depth : Nat) : Bytes := 0x0a :: (List.replicate depth [0x20, 0x20]).flatten

/-- The loop of Go `appendIndent(dst, src, "", "  ")` over the rest of `src`, in a
given scanner state: the bytes it appends to `dst`, or `none` when the scanner
rejects the input (`appendIndent` then returns the scanner's error and no bytes). -/
def appendIndentLoop (scan : scanner) (needIndent : Bool) (depth : Nat) :
    Bytes → Option Bytes
  | [] => if scan.eof = .scanError then none else some []
  | c :: src =>
    match scan.run c with
    | (scan1, v) =>
      if v = .scanSkipSpace then appendIndentLoop scan1 needIndent depth src
      else if v = .scanError then none
      else
        match (if needIndent && v != .scanEndObject && v != .scanEndArray
                then (false, depth + 1, appendNewline (depth + 1))
                else (needIndent, depth, [])) with
        | (needIndent1, depth1, pre) =>
          if v = .scanContinue then
            (appendIndentLoop scan1 needIndent1 depth1 src).map (fun out => pre ++ c :: out)
          else if c = 0x7b ∨ c = 0x5b then
            (appendIndentLoop scan1 true depth1 src).map (fun out => pre ++ c :: out)
          else if c = 0x2c then
            (appendIndentLoop scan1 needIndent1 depth1 src).map
              (fun out => pre ++ c :: (appendNewline depth1 ++ out))
          else if c = 0x3a then
            (appendIndentLoop scan1 needIndent1 depth1 src).map
              (fun out => pre ++ c :: 0x20 :: out)
          else if c = 0x7d ∨ c = 0x5d then
            if needIndent1 then
              (appendIndentLoop scan1 false depth1 src).map (fun out => pre ++ c :: out)
            else
              (appendIndentLoop scan1 false (depth1 - 1) src).map
                (fun out => pre ++ (appendNewline (depth1 - 1) ++ c :: out))
          else
            (appendIndentLoop scan1 needIndent1 depth1 src).map (fun out => pre ++ c :: out)

/-- Go `appendIndent(nil, src, "", "  ")`. -/
def appendIndent (src : Bytes) : Option Bytes := appendIndentLoop newScanner false 0 src

/-- Go `(*Encoder).Encode(v)` after `SetIndent("", "  ")`, for a map of strings and
booleans: the bytes handed to the writer in one `Write`, or `none` when the encoder
returns an error.  Marshalling such a map cannot fail; the value is terminated with
a line feed and then indented. -/
def Encode (v : GoMap) : Option Bytes := appendIndent (marshal v ++ [0x0a])

end json

/-! ## arc-sdk: errors and output options -/

namespace arcer

/-- The `CLIError` of `arc-sdk/errors`, with the two fields the handler sets. -/
structure CLIError where
  Msg : String
  Hint : String
  deriving DecidableEq, Repr

end arcer

namespace output

/-- The output formats of `arc-sdk/output` the handler names (`output.OutputTable`
is the default it registers with `AddOutputFlags`). -/
inductive OutputFormat where
  | OutputTable | OutputJSON | OutputYAML | OutputQuiet
  deriving DecidableEq, Repr

/-- Modelled from the spec: `OutputOptions.Is` of `arc-sdk/output`, which is not part
of this repository.  The options hold the one rendering mode resolved from the flags
("selected rendering mode, one of table, json, yaml, quiet, resolved once per
invocation"), and `Is` tests it. -/
def Is (resolved format : OutputFormat) : Bool := resolved == format

/-- The error `OutputOptions.Resolve` reports for a flag value it does not recognise. -/
structure FormatResolutionError where
  value : String
  deriving DecidableEq, Repr

/-- Modelled from the spec: `OutputOptions.Resolve` of `arc-sdk/output`, which is not
part of this repository, on the value of the `--output` flag: "one of table (default),
json, yaml, quiet"; any other value fails with a format-resolution error.  The
theorems about the handler hold for every resolver; this one serves as an instance. -/
def Resolve (flag : String) : Except FormatResolutionError OutputFormat :=
  if flag = "table" then .ok .OutputTable
  else if flag = "json" then .ok .OutputJSON
  else if flag = "yaml" then .ok .OutputYAML
  else if flag = "quiet" then .ok .OutputQuiet
  else .error { value := flag }

end output

/-! ## internal/cmd/root.go: `fetchCmd` -/

namespace fetchCmd

open output (OutputFormat)

/-- The error `RunE` returns: the `*arcer.CLIError` it allocates itself, the error
`opts.Resolve()` returned, passed on unchanged, or the error of the JSON encoder. -/
inductive Error (ε : Type) where
  | cli (e : arcer.CLIError)
  | resolve (err : ε)
  | encode
  deriving DecidableEq, Repr

/-- One write to `cmd.OutOrStdout()`: the bytes of a `fmt.Fprintf` or of the JSON
encoder's `Write`, or what `yaml.NewEncoder(w).Encode(result)` followed by `Close`
gets onto the stream for a map (the YAML library is not modelled further). -/
inductive Emission where
  | bytes (b : Bytes)
  | yamlDocument (result : GoMap)
  deriving DecidableEq, Repr

/-- What one run of the handler does: the writes to standard output in order, the
`result` map if execution reached its construction, and the error returned. -/
structure Outcome (ε : Type) where
  stdout : List Emission
  result : Option GoMap
  err : Option (Error ε)

/-- The `result` map literal of `RunE`. -/
def result (articleURL playlist outDir : Bytes) (analyze : Bool) : GoMap :=
  [ (lit "url", .string articleURL),
    (lit "playlist", .string playlist),
    (lit "out_dir", .string outDir),
    (lit "analyze", .bool analyze),
    (lit "status", .string (lit "stub")),
    (lit "next_step", .string (lit "Phase 2 ingestion pipeline")) ]

/-- The verb `%t` of `fmt`. -/
def fmtBool (b : Bool) : Bytes := if b then lit "true" else lit "false"

/-- The `RunE` closure of `fetchCmd`, for the flag values `articleURL`, `playlist`,
`outDir`, `analyze` and the output options `opts`, whose `Resolve` method is the
parameter `Resolve`, on a standard output that accepts every write and with a YAML
encoder that reports no error; `RunEOn` below is the closure on a writer that may
fail. -/
def RunE {α ε : Type} (Resolve : α → Except ε OutputFormat)
    (articleURL playlist outDir : Bytes) (analyze : Bool) (opts : α) : Outcome ε :=
  if articleURL = [] ∧ playlist = [] then
    { stdout := [], result := none,
      err := some (.cli { Msg := "provide --url or --playlist",
                          Hint := "blog fetch requires at least one source" }) }
  else
    match Resolve opts with
    | .error err => { stdout := [], result := none, err := some (.resolve err) }
    | .ok resolved =>
      let result := result articleURL playlist outDir analyze
      if output.Is resolved .OutputJSON then
        match json.Encode result with
        | some b => { stdout := [.bytes b], result := some result, err := none }
        | none => { stdout := [], result := some result, err := some .encode }
      else if output.Is resolved .OutputYAML then
        { stdout := [.yamlDocument result], result := some result, err := none }
      else if output.Is resolved .OutputQuiet then
        { stdout := [], result := some result, err := none }
      else
        { stdout :=
            [.bytes (lit "blog fetch (stub) -> out_dir=" ++ outDir ++ lit " analyze=" ++
              fmtBool analyze ++ lit "\n")] ++
            (if articleURL ≠ [] then [.bytes (lit "  URL: " ++ articleURL ++ lit "\n")]
              else []) ++
            (if playlist ≠ [] then [.bytes (lit "  Playlist: " ++ playlist ++ lit "\n")]
              else []),
          result := some result, err := none }

/-- The bytes standard output holds after the writes `es`, when all of them are
byte writes. -/
def written : List Emission → Option Bytes
  | [] => some []
  | .bytes b :: es => (written es).map (fun rest => b ++ rest)
  | .yamlDocument _ :: _ => none

/-- An `io.Writer`: `Write` on a stream in state `w` takes a buffer and gives the
next state of the stream, the number of bytes it accepted and its error. -/
abbrev Writer (ω κ : Type) := ω → Bytes → ω × Nat × Option κ

/-- What `RunE` returns on a writer that may fail: `nil`, the `*arcer.CLIError` it
allocates itself, the error of `opts.Resolve()`, the error of the JSON encoder's
`Write`, an error of JSON marshalling, or whatever `Encode` of the YAML encoder
returned for the map (that library is not modelled, so this value stays unread). -/
inductive Returned (ε κ : Type) where
  | nil
  | cli (e : arcer.CLIError)
  | resolve (err : ε)
  | write (err : κ)
  | encode
  | yaml (result : GoMap)
  deriving DecidableEq, Repr

/-- What one run of the handler does on a writer that may fail: what reached standard
output, one entry for each `Write` in order (the bytes that `Write` accepted), the
`result` map if execution reached its construction, and the value returned. -/
structure Run (ε κ : Type) where
  stdout : List Emission
  result : Option GoMap
  ret : Returned ε κ

/-- A sequence of `fmt.Fprintf(w, ...)` statements whose results are discarded: each
buffer is handed to `Write` in turn, whatever the earlier calls returned. -/
def Fprintfs {ω κ : Type} (Write : Writer ω κ) : ω → List Bytes → List Emission
  | _, [] => []
  | w, p :: ps =>
    match Write w p with
    | (w1, n, _) => .bytes (p.take n) :: Fprintfs Write w1 ps

/-- The `RunE` closure of `fetchCmd` with `cmd.OutOrStdout()` the stream `w` of the
writer `Write`.  The JSON branch returns the error of the encoder's one `Write`; the
table branch discards the results of its `Fprintf` calls and returns `nil`; the YAML
branch returns what the YAML encoder returns. -/
def RunEOn {α ε ω κ : Type} (Resolve : α → Except ε OutputFormat) (Write : Writer ω κ)
    (w : ω) (articleURL playlist outDir : Bytes) (analyze : Bool) (opts : α) : Run ε κ :=
  if articleURL = [] ∧ playlist = [] then
    { stdout := [], result := none,
      ret := .cli { Msg := "provide --url or --playlist",
                    Hint := "blog fetch requires at least one source" } }
  else
    match Resolve opts with
    | .error err => { stdout := [], result := none, ret := .resolve err }
    | .ok resolved =>
      let result := result articleURL playlist outDir analyze
      if output.Is resolved .OutputJSON then
        match json.Encode result with
        | some b =>
          match Write w b with
          | (_, n, none) => { stdout := [.bytes (b.take n)], result := some result, ret := .nil }
          | (_, n, some err) =>
            { stdout := [.bytes (b.take n)], result := some result, ret := .write err }
        | none => { stdout := [], result := some result, ret := .encode }
      else if output.Is resolved .OutputYAML then
        { stdout := [.yamlDocument result], result := some result, ret := .yaml result }
      else if output.Is resolved .OutputQuiet then
        { stdout := [], result := some result, ret := .nil }
      else
        { stdout := Fprintfs Write w
            ([lit "blog fetch (stub) -> out_dir=" ++ outDir ++ lit " analyze=" ++
              fmtBool analyze ++ lit "\n"] ++
            (if articleURL ≠ [] then [lit "  URL: " ++ articleURL ++ lit "\n"] else []) ++
            (if playlist ≠ [] then [lit "  Playlist: " ++ playlist ++ lit "\n"] else [])),
          result := some result, ret := .nil }

/-- A writer that accepts every buffer in full. -/
def acceptAll : Writer Unit String := fun _ p => ((), p.length, none)

/-- A writer on a stream with room for `room` more bytes (a full disk; a closed pipe
when `room` is zero): it accepts what fits and reports an error when not all did. -/
def limited : Writer Nat String := fun room p =>
  (room - p.length, min room p.length,
    if p.length ≤ room then none else some "no space left on device")

end fetchCmd

/-! ## JSON decoding (RFC 8259), the reading side of the round trip -/

namespace JSON

/-- A JSON value; a number keeps its text, an object its members in document order. -/
inductive Value where
  | null
  | bool (b : Bool)
  | number (text : Bytes)
  | string (s : Bytes)
  | array (items : List Value)
  | object (members : List (Bytes × Value))

/-- Skip insignificant whitespace (space, tab, line feed, carriage return). -/
def skipWS : Bytes → Bytes
  | [] => []
  | c :: rest => if c = 0x20 ∨ c = 0x09 ∨ c = 0x0a ∨ c = 0x0d then skipWS rest else c :: rest

/-- The value of a hexadecimal digit. -/
def hexVal (c : Nat) : Option Nat :=
  if 0x30 ≤ c ∧ c ≤ 0x39 then some (c - 0x30)
  else if 0x61 ≤ c ∧ c ≤ 0x66 then some (c - 0x61 + 10)
  else if 0x41 ≤ c ∧ c ≤ 0x46 then some (c - 0x41 + 10)
  else none

/-- The number four hexadecimal digits denote. -/
def hex4 (a b c d : Nat) : Option Nat :=
  match hexVal a, hexVal b, hexVal c, hexVal d with
  | some x, some y, some z, some w => some (x * 4096 + y * 256 + z * 16 + w)
  | _, _, _, _ => none

/-- The character a two-character escape sequence denotes. -/
def simpleEscape (e : Nat) : Option Nat :=
  if e = 0x22 then some 0x22
  else if e = 0x5c then some 0x5c
  else if e = 0x2f then some 0x2f
  else if e = 0x62 then some 0x08
  else if e = 0x66 then some 0x0c
  else if e = 0x6e then some 0x0a
  else if e = 0x72 then some 0x0d
  else if e = 0x74 then some 0x09
  else none

/-- The low surrogate escape `\uXXXX` at the head of `s`, if there is one. -/
def lowSurrogate (s : Bytes) : Option Nat :=
  match s with
  | c :: u :: l1 :: l2 :: l3 :: l4 :: _ =>
    if c = 0x5c ∧ u = 0x75 then
      match hex4 l1 l2 l3 l4 with
      | some r => if 0xDC00 ≤ r ∧ r ≤ 0xDFFF then some r else none
      | none => none
    else none
  | _ => none

/-- The loop of `unquote`; the fuel bounds the number of iterations, each of which
consumes at least one byte. -/
def unquoteLoop : Nat → Bytes → Option (Bytes × Bytes)
  | 0, _ => none
  | _ + 1, [] => none
  | fuel + 1, c :: rest =>
    if c = 0x22 then some ([], rest)
    else if c = 0x5c then
      match rest with
      | [] => none
      | e :: rest1 =>
        if e = 0x75 then
          match hex4 (rest1.getD 0 0) (rest1.getD 1 0) (rest1.getD 2 0) (rest1.getD 3 0) with
          | none => none
          | some r =>
            if 0xD800 ≤ r ∧ r ≤ 0xDBFF then
              match lowSurrogate (rest1.drop 4) with
              | some r1 =>
                (unquoteLoop fuel (rest1.drop 10)).map (fun p =>
                  (utf8.EncodeRune (0x10000 + (r - 0xD800) * 1024 + (r1 - 0xDC00)) ++ p.1, p.2))
              | none =>
                (unquoteLoop fuel (rest1.drop 4)).map (fun p =>
                  (utf8.EncodeRune utf8.RuneError ++ p.1, p.2))
            else
              (unquoteLoop fuel (rest1.drop 4)).map (fun p => (utf8.EncodeRune r ++ p.1, p.2))
        else
          match simpleEscape e with
          | some b => (unquoteLoop fuel rest1).map (fun p => (b :: p.1, p.2))
          | none => none
    else if c < 0x20 then none
    else (unquoteLoop fuel rest).map (fun p => (c :: p.1, p.2))

/-- The contents of a string after its opening quote, up to the closing quote, with
the escape sequences replaced by the UTF-8 encoding of what they denote (a surrogate
pair by the character it encodes, a lone surrogate by U+FFFD), and the rest of the
input after the closing quote.  Unescaped bytes are taken as they are; a control
character, an unknown escape or a missing closing quote is an error. -/
def unquote (s : Bytes) : Option (Bytes × Bytes) := unquoteLoop s.length s

/-- The longest run of decimal digits at the head of `s`, and what follows it. -/
def digits : Bytes → Bytes × Bytes
  | [] => ([], [])
  | c :: rest =>
    if 0x30 ≤ c ∧ c ≤ 0x39 then ((c :: (digits rest).1), (digits rest).2) else ([], c :: rest)

/-- A number at the head of `s`: its text and the rest of the input. -/
def number (s : Bytes) : Option (Bytes × Bytes) :=
  let sign := if s.head? = some 0x2d then [0x2d] else []
  let s1 := if s.head? = some 0x2d then s.tail else s
  let int := (digits s1).1
  let s2 := (digits s1).2
  if int = [] ∨ (int.head? = some 0x30 ∧ int.length ≠ 1) then none
  else
    let fracOK := s2.head? = some 0x2e
    let frac := if fracOK then 0x2e :: (digits s2.tail).1 else []
    let s3 := if fracOK then (digits s2.tail).2 else s2
    if fracOK ∧ (digits s2.tail).1 = [] then none
    else
      if s3.head? = some 0x65 ∨ s3.head? = some 0x45 then
        let signed := s3.tail.head? = some 0x2b ∨ s3.tail.head? = some 0x2d
        let s4 := if signed then s3.tail.tail else s3.tail
        if (digits s4).1 = [] then none
        else some (sign ++ int ++ frac ++ s3.take (if signed then 2 else 1) ++ (digits s4).1,
          (digits s4).2)
      else some (sign ++ int ++ frac, s3)

mutual

/-- A JSON value at the head of `s` (after optional whitespace) and the rest of the
input; the fuel bounds the nesting and the number of members and items. -/
def parseValue : Nat → Bytes → Option (Value × Bytes)
  | 0, _ => none
  | fuel + 1, s =>
    match skipWS s with
    | [] => none
    | c :: rest =>
      if c = 0x22 then (unquote rest).map (fun p => (.string p.1, p.2))
      else if c = 0x7b then
        match skipWS rest with
        | [] => none
        | d :: rest1 =>
          if d = 0x7d then some (.object [], rest1)
          else (parseMembers fuel (d :: rest1)).map (fun p => (.object p.1, p.2))
      else if c = 0x5b then
        match skipWS rest with
        | [] => none
        | d :: rest1 =>
          if d = 0x5d then some (.array [], rest1)
          else (parseItems fuel (d :: rest1)).map (fun p => (.array p.1, p.2))
      else if (c :: rest).take 4 = [0x74, 0x72, 0x75, 0x65] then some (.bool true, rest.drop 3)
      else if (c :: rest).take 5 = [0x66, 0x61, 0x6c, 0x73, 0x65] then
        some (.bool false, rest.drop 4)
      else if (c :: rest).take 4 = [0x6e, 0x75, 0x6c, 0x6c] then some (.null, rest.drop 3)
      else (number (c :: rest)).map (fun p => (.number p.1, p.2))

/-- The members of an object after its opening brace, up to the closing brace. -/
def parseMembers : Nat → Bytes → Option (List (Bytes × Value) × Bytes)
  | 0, _ => none
  | fuel + 1, s =>
    match skipWS s with
    | [] => none
    | q :: rest =>
      if q = 0x22 then
        match unquote rest with
        | none => none
        | some (key, rest1) =>
          match skipWS rest1 with
          | [] => none
          | colon :: rest2 =>
            if colon = 0x3a then
              match parseValue fuel rest2 with
              | none => none
              | some (v, rest3) =>
                match skipWS rest3 with
                | [] => none
                | sep :: rest4 =>
                  if sep = 0x2c then
                    (parseMembers fuel rest4).map (fun p => ((key, v) :: p.1, p.2))
                  else if sep = 0x7d then some ([(key, v)], rest4)
                  else none
            else none
      else none

/-- The items of an array after its opening bracket, up to the closing bracket. -/
def parseItems : Nat → Bytes → Option (List Value × Bytes)
  | 0, _ => none
  | fuel + 1, s =>
    match parseValue fuel s with
    | none => none
    | some (v, rest) =>
      match skipWS rest with
      | [] => none
      | sep :: rest1 =>
        if sep = 0x2c then (parseItems fuel rest1).map (fun p => (v :: p.1, p.2))
        else if sep = 0x5d then some ([v], rest1)
        else none

end

/-- Decode a JSON text: one value, with nothing but whitespace around it. -/
def decode (s : Bytes) : Option Value :=
  match parseValue (s.length + 1) s with
  | none => none
  | some (v, rest) => if skipWS rest = [] then some v else none

end JSON

/-! ## Auxiliary definitions for the proofs -/

open utf8 json JSON

/-- A multi-byte encoding at the head of `s`: `size` bytes, all at least `0x80`. -/
def MultiByte (s : Bytes) (r size : Nat) : Prop :=
  ∃ pre post, s = pre ++ post ∧ pre.length = size ∧ 2 ≤ size ∧
    (∀ x ∈ pre, 0x80 ≤ x ∧ x < 0x100) ∧
    (r = 0x2028 → pre = [0xE2, 0x80, 0xA8]) ∧ (r = 0x2029 → pre = [0xE2, 0x80, 0xA9])

/-- `Quoted clean src out`: `out` is what the encoder's string loop writes for `src`,
described chunk by chunk; `clean` holds when no invalid byte was replaced. -/
inductive Quoted : Bool → Bytes → Bytes → Prop
  | nil {c : Bool} : Quoted c [] []
  | safe {c : Bool} {b : Nat} {src out : Bytes} :
      htmlSafeSet b = true → Quoted c src out → Quoted c (b :: src) (b :: out)
  | short {c : Bool} {b e : Nat} {src out : Bytes} :
      (b, e) ∈ [(0x5c, 0x5c), (0x22, 0x22), (0x08, 0x62), (0x0c, 0x66), (0x0a, 0x6e),
        (0x0d, 0x72), (0x09, 0x74)] →
      Quoted c src out → Quoted c (b :: src) (0x5c :: e :: out)
  | u00 {c : Bool} {b : Nat} {src out : Bytes} :
      b < 0x80 → Quoted c src out →
      Quoted c (b :: src) (0x5c :: 0x75 :: 0x30 :: 0x30 :: hex (b / 16) :: hex (b % 16) :: out)
  | invalid {b : Nat} {src out : Bytes} :
      Quoted false src out →
      Quoted false (b :: src) (0x5c :: 0x75 :: 0x66 :: 0x66 :: 0x66 :: 0x64 :: out)
  | sep {c : Bool} {d : Nat} {src out : Bytes} :
      d < 2 → Quoted c src out →
      Quoted c (0xE2 :: 0x80 :: (0xA8 + d) :: src)
        (0x5c :: 0x75 :: 0x32 :: 0x30 :: 0x32 :: (0x38 + d) :: out)
  | multi {c : Bool} {pre src out : Bytes} :
      (∀ x ∈ pre, 0x80 ≤ x) → Quoted c src out → Quoted c (pre ++ src) (pre ++ out)

/-- The JSON value a decoder should read back for a value of the map. -/
def toJSONValue : GoAny → JSON.Value
  | .string s => .string s
  | .bool b => .bool b

/-- The JSON members a decoder should read back for the entries of a map. -/
def toJSONMembers (m : GoMap) : List (Bytes × JSON.Value) := m.map (fun kv => (kv.1, toJSONValue kv.2))

/-- Every string of the value is valid UTF-8. -/
def validValue : GoAny → Bool
  | .string s => ValidString s
  | .bool _ => true

/-- Every key and every string of the map is valid UTF-8. -/
def validMap (m : GoMap) : Bool := m.all (fun kv => ValidString kv.1 && validValue kv.2)

/-- The line of one entry in the indented rendering. -/
def memberLine (kv : Bytes × GoAny) : Bytes :=
  lit "  " ++ appendString kv.1 ++ lit ": " ++ encodeValue kv.2

/-- The lines of the entries after the first: each follows a comma and a line feed. -/
def moreLines : GoMap → Bytes
  | [] => []
  | kv :: kvs => lit ",\n" ++ memberLine kv ++ moreLines kvs

/-- The indented rendering of the entries `kvs`, in the order given. -/
def indentedObject : GoMap → Bytes
  | [] => lit "\x7b\x7d\n"
  | kv :: kvs => lit "\x7b\n" ++ memberLine kv ++ moreLines kvs ++ lit "\n\x7d\n"

/-- Strict key order. -/
def keyLT (a b : Bytes × GoAny) : Prop := keyLE a b ∧ a.1 ≠ b.1

/-- The lines of a text: the pieces between its line feeds. -/
def lines : Bytes → List Bytes
  | [] => [[]]
  | c :: rest =>
    if c = 0x0a then [] :: lines rest
    else
      match lines rest with
      | [] => [[c]]
      | l :: ls => (c :: l) :: ls

/-- Some line of `out` contains `text`. -/
def hasLineWith (text out : Bytes) : Prop := ∃ l ∈ lines out, text <:+: l

instance (text out : Bytes) : Decidable (hasLineWith text out) :=
  inferInstanceAs (Decidable (∃ l ∈ lines out, text <:+: l))

/-- The JSON object claimed to be read back from the handler's JSON output. -/
def expectedJSON (articleURL playlist outDir : Bytes) (analyze : Bool) : JSON.Value :=
  .object
    [ (lit "analyze", .bool analyze),
      (lit "next_step", .string (lit "Phase 2 ingestion pipeline")),
      (lit "out_dir", .string outDir),
      (lit "playlist", .string playlist),
      (lit "status", .string (lit "stub")),
      (lit "url", .string articleURL) ]

/-! ## Lemmas: UTF-8 decoding and string quoting -/

theorem DecodeRuneInString_take (s : Bytes) :
    DecodeRuneInString (s.take UTFMax) = DecodeRuneInString s := by
  rcases s with _ | ⟨a, _ | ⟨b, _ | ⟨c, _ | ⟨d, t⟩⟩⟩⟩ <;>
    simp [DecodeRuneInString, UTFMax]
  have e : ∀ n : Nat, ¬ (n + 1 + 1 + 1 + 1 < if a < 224 then 2 else if a < 240 then 3 else 4) := by
    intro n; split_ifs <;> omega
  have e2 : ¬ (4 < if a < 224 then 2 else if a < 240 then 3 else 4) := by
    split_ifs <;> omega
  simp only [e, e2]

theorem multiByte2 (b s1 r : Nat) (t : Bytes) (hr : r = b % 32 * 64 + s1 % 64)
    (h0 : 0xC2 ≤ b) (h1 : b < 0xE0) (h2 : 0x80 ≤ s1) (h3 : s1 ≤ 0xBF) :
    MultiByte (b :: s1 :: t) r 2 := by
  refine ⟨[b, s1], t, rfl, rfl, Nat.le_refl 2, ?_, ?_, ?_⟩
  · simp; omega
  · intro h; exfalso; omega
  · intro h; exfalso; omega

theorem multiByte3 (b s1 s2 r : Nat) (t : Bytes)
    (hr : r = b % 16 * 4096 + s1 % 64 * 64 + s2 % 64) (h0 : 0xE0 ≤ b) (h1 : b < 0xF0)
    (h2 : 0x80 ≤ s1) (h3 : s1 ≤ 0xBF) (h4 : 0x80 ≤ s2) (h5 : s2 ≤ 0xBF) :
    MultiByte (b :: s1 :: s2 :: t) r 3 := by
  refine ⟨[b, s1, s2], t, rfl, rfl, by omega, ?_, ?_, ?_⟩
  · simp; omega
  · intro h; simp; omega
  · intro h; simp; omega

theorem multiByte4 (b s1 s2 s3 r : Nat) (t : Bytes)
    (hr : r = b % 8 * 262144 + s1 % 64 * 4096 + s2 % 64 * 64 + s3 % 64)
    (h0 : 0xF0 ≤ b) (h1 : b ≤ 0xF4)
    (h2 : 0x80 ≤ s1) (h3 : s1 ≤ 0xBF) (h4 : 0x80 ≤ s2) (h5 : s2 ≤ 0xBF)
    (h6 : 0x80 ≤ s3) (h7 : s3 ≤ 0xBF) (h8 : b = 0xF0 → 0x90 ≤ s1) :
    MultiByte (b :: s1 :: s2 :: s3 :: t) r 4 := by
  refine ⟨[b, s1, s2, s3], t, rfl, rfl, by omega, ?_, ?_, ?_⟩
  · simp; omega
  · intro h; exfalso; omega
  · intro h; exfalso; omega

theorem DecodeRuneInString_cases (b : Nat) (rest : Bytes) (hb : ¬ b < RuneSelf) :
    DecodeRuneInString (b :: rest) = (RuneError, 1) ∨
      MultiByte (b :: rest) (DecodeRuneInString (b :: rest)).1
        (DecodeRuneInString (b :: rest)).2 := by
  simp only [RuneSelf] at hb
  by_cases hx : b < 0xC2 ∨ 0xF4 < b
  · left; simp only [DecodeRuneInString, RuneSelf, if_neg hb, if_pos hx]
  by_cases h2 : b < 0xE0
  · have e1 : ¬ b = 0xE0 := by omega
    have e2 : ¬ b = 0xF0 := by omega
    have e3 : ¬ b = 0xED := by omega
    have e4 : ¬ b = 0xF4 := by omega
    rcases rest with _ | ⟨s1, t⟩
    · left; simp [DecodeRuneInString, RuneSelf, hb, hx, h2]
    · simp only [DecodeRuneInString, RuneSelf, if_neg hb, if_neg hx, if_pos h2, if_neg e1,
        if_neg e2, if_neg e3, if_neg e4, List.length_cons]
      have e5 : ¬ (t.length + 1 + 1 < 2) := by omega
      simp only [if_neg e5, Nat.le_refl, if_true]
      by_cases hs : s1 < 128 ∨ 191 < s1
      · left; simp only [if_pos hs]
      · right; simp only [if_neg hs]
        exact multiByte2 _ _ _ _ rfl (by omega) h2 (by omega) (by omega)
  have e0 : ¬ (if b < 224 then 2 else if b < 240 then 3 else 4) ≤ 2 := by
    rw [if_neg h2]; split_ifs <;> omega
  have hlo : 0x80 ≤ (if b = 224 then 160 else if b = 240 then 144 else 128) ∧
      (b = 240 → 0x90 ≤ (if b = 224 then 160 else if b = 240 then 144 else 128)) := by
    split_ifs <;> omega
  have hhi : (if b = 237 then 159 else if b = 244 then 143 else 191) ≤ 0xBF := by
    split_ifs <;> omega
  by_cases h3 : b < 0xF0
  · rcases rest with _ | ⟨s1, _ | ⟨s2, t⟩⟩
    · left; simp [DecodeRuneInString, RuneSelf, hb, hx, h2, h3]
    · left; simp [DecodeRuneInString, RuneSelf, hb, hx, h2, h3]
    · simp only [DecodeRuneInString, RuneSelf, if_neg hb, if_neg hx, if_neg h2, if_pos h3,
        List.length_cons]
      have e5 : ¬ (t.length + 1 + 1 + 1 < 3) := by omega
      have e6 : ¬ (3 ≤ 2) := by omega
      simp only [if_neg e5, if_neg e6, Nat.le_refl, if_true]
      generalize (if b = 224 then 160 else if b = 240 then 144 else 128) = lo at hlo ⊢
      generalize (if b = 237 then 159 else if b = 244 then 143 else 191) = hi at hhi ⊢
      by_cases hs : s1 < lo ∨ hi < s1
      · left; simp only [if_pos hs]
      simp only [if_neg hs]
      by_cases hs2 : s2 < 128 ∨ 191 < s2
      · left; simp only [if_pos hs2]
      right; simp only [if_neg hs2]
      exact multiByte3 _ _ _ _ _ rfl (by omega) h3 (by omega) (by omega) (by omega) (by omega)
  · rcases rest with _ | ⟨s1, _ | ⟨s2, _ | ⟨s3, t⟩⟩⟩
    · left; simp [DecodeRuneInString, RuneSelf, hb, hx, h2, h3]
    · left; simp [DecodeRuneInString, RuneSelf, hb, hx, h2, h3]
    · left; simp [DecodeRuneInString, RuneSelf, hb, hx, h2, h3]
    · simp only [DecodeRuneInString, RuneSelf, if_neg hb, if_neg hx, if_neg h2, if_neg h3,
        List.length_cons]
      have e5 : ¬ (t.length + 1 + 1 + 1 + 1 < 4) := by omega
      have e6 : ¬ (4 ≤ 2) := by omega
      have e7 : ¬ (4 ≤ 3) := by omega
      simp only [if_neg e5, if_neg e6, if_neg e7]
      generalize (if b = 224 then 160 else if b = 240 then 144 else 128) = lo at hlo ⊢
      generalize (if b = 237 then 159 else if b = 244 then 143 else 191) = hi at hhi ⊢
      by_cases hs : s1 < lo ∨ hi < s1
      · left; simp only [if_pos hs]
      simp only [if_neg hs]
      by_cases hs2 : s2 < 128 ∨ 191 < s2
      · left; simp only [if_pos hs2]
      simp only [if_neg hs2]
      by_cases hs3 : s3 < 128 ∨ 191 < s3
      · left; simp only [if_pos hs3]
      right; simp only [if_neg hs3]
      exact multiByte4 _ _ _ _ _ _ rfl (by omega) (by omega) (by omega) (by omega) (by omega)
        (by omega) (by omega) (by omega) (by omega)

theorem appendStringLoop_quoted (clean : Bool) :
    ∀ (fuel : Nat) (s : Bytes), s.length ≤ fuel →
      (clean = true → ValidStringLoop fuel s = true) →
      Quoted clean s (appendStringLoop fuel s) := by
  intro fuel
  induction fuel with
  | zero =>
    intro s hs _
    have : s = [] := List.length_eq_zero.mp (by omega)
    subst this
    exact Quoted.nil
  | succ fuel ih =>
    intro s hs hv
    rcases s with _ | ⟨b, rest⟩
    · exact Quoted.nil
    · have hlen : rest.length ≤ fuel := by simpa using hs
      by_cases hb : b < RuneSelf
      · have hv1 : clean = true → ValidStringLoop fuel rest = true := by
          intro hc; have := hv hc; simpa [ValidStringLoop, hb] using this
        have q := ih rest hlen hv1
        simp only [appendStringLoop, if_pos hb]
        split_ifs with h1 h2 h3 h4 h5 h6 h7
        · exact Quoted.safe h1 q
        · rcases h2 with rfl | rfl
          · exact Quoted.short (by simp) q
          · exact Quoted.short (by simp) q
        · subst h3; exact Quoted.short (by simp) q
        · subst h4; exact Quoted.short (by simp) q
        · subst h5; exact Quoted.short (by simp) q
        · subst h6; exact Quoted.short (by simp) q
        · subst h7; exact Quoted.short (by simp) q
        · exact Quoted.u00 (by simpa [RuneSelf] using hb) q
      · simp only [appendStringLoop, if_neg hb, DecodeRuneInString_take]
        rcases DecodeRuneInString_cases b rest hb with hd | ⟨pre, post, hsplit, hl, h2, hall, h28, h29⟩
        · have hc : clean = false := by
            cases clean with
            | false => rfl
            | true =>
              have := hv rfl
              simp [ValidStringLoop, hb, hd] at this
          subst hc
          simp only [hd, and_self, if_true]
          exact Quoted.invalid (ih rest hlen (by simp))
        · have hv2 : clean = true → ¬ ((DecodeRuneInString (b :: rest)).1 = RuneError ∧
              (DecodeRuneInString (b :: rest)).2 = 1) →
              ValidStringLoop fuel ((b :: rest).drop (DecodeRuneInString (b :: rest)).2) = true := by
            intro hc hne; have := hv hc
            simpa only [ValidStringLoop, if_neg hb, if_neg hne] using this
          generalize DecodeRuneInString (b :: rest) = dec at hl h2 h28 h29 hv2 ⊢
          have hne : ¬ (dec.1 = RuneError ∧ dec.2 = 1) := by
            rintro ⟨_, h1⟩; omega
          have htake : (b :: rest).take dec.2 = pre := by
            rw [hsplit, ← hl]; exact List.take_left' rfl
          have hdrop : (b :: rest).drop dec.2 = post := by
            rw [hsplit, ← hl]; exact List.drop_left' rfl
          have hpl : post.length ≤ fuel := by
            have := congrArg List.length hsplit
            simp at this; omega
          have hvp : clean = true → ValidStringLoop fuel post = true := by
            intro hc; have := hv2 hc hne
            rwa [hdrop] at this
          have q := ih post hpl hvp
          simp only [if_neg hne, htake, hdrop]
          split_ifs with h
          · rcases h with h | h
            · have hp := h28 h
              rw [hsplit, hp, h]
              exact Quoted.sep (d := 0) (by omega) q
            · have hp := h29 h
              rw [hsplit, hp, h]
              exact Quoted.sep (d := 1) (by omega) q
          · rw [hsplit]
            exact Quoted.multi (fun x hx => (hall x hx).1) q

theorem appendString_quoted (clean : Bool) (s : Bytes) (h : clean = true → ValidString s = true) :
    Quoted clean s (appendStringLoop s.length s) :=
  appendStringLoop_quoted clean s.length s (Nat.le_refl _) h

/-! ## Lemmas: `appendIndent` on the encoder's output -/

theorem lit_true : lit "true" = [0x74, 0x72, 0x75, 0x65] := by decide
theorem lit_false : lit "false" = [0x66, 0x61, 0x6c, 0x73, 0x65] := by decide
theorem lit_comma_nl : lit ",\n" = [0x2c, 0x0a] := by decide
theorem lit_indent : lit "  " = [0x20, 0x20] := by decide
theorem lit_colon_sp : lit ": " = [0x3a, 0x20] := by decide
theorem lit_nl_close_nl : lit "\n\x7d\n" = [0x0a, 0x7d, 0x0a] := by decide
theorem lit_open_nl : lit "\x7b\n" = [0x7b, 0x0a] := by decide
theorem lit_open_close_nl : lit "\x7b\x7d\n" = [0x7b, 0x7d, 0x0a] := by decide

theorem isHexDigit_hex (n : Nat) (h : n < 16) : isHexDigit (hex n) = true := by
  unfold isHexDigit hex
  split_ifs <;> simp <;> omega

theorem appendIndentLoop_inString_byte (et : Bool) (ps : List ParseState) (depth : Nat)
    (b : Nat) (tail : Bytes) (h1 : 0x20 ≤ b) (h2 : b ≠ 0x22) (h3 : b ≠ 0x5c) :
    appendIndentLoop { step := .stateInString, endTop := et, parseState := ps, err := false }
        false depth (b :: tail) =
      (appendIndentLoop { step := .stateInString, endTop := et, parseState := ps, err := false }
        false depth tail).map (fun o => b :: o) := by
  have h4 : ¬ b < 0x20 := by omega
  simp [appendIndentLoop, scanner.run, h2, h3, h4]

theorem appendIndentLoop_inString_u4 (et : Bool) (ps : List ParseState) (depth : Nat)
    (a b c d : Nat) (tail : Bytes) (ha : isHexDigit a = true) (hb : isHexDigit b = true)
    (hc : isHexDigit c = true) (hd : isHexDigit d = true) :
    appendIndentLoop { step := .stateInString, endTop := et, parseState := ps, err := false }
        false depth (0x5c :: 0x75 :: a :: b :: c :: d :: tail) =
      (appendIndentLoop { step := .stateInString, endTop := et, parseState := ps, err := false }
        false depth tail).map (fun o => 0x5c :: 0x75 :: a :: b :: c :: d :: o) := by
  simp [appendIndentLoop, scanner.run, ha, hb, hc, hd, Option.map_map, Function.comp_def]

theorem appendIndentLoop_quoted {c : Bool} {src out : Bytes} (q : Quoted c src out)
    (et : Bool) (ps : List ParseState) (depth : Nat) (tail : Bytes) :
    appendIndentLoop { step := .stateInString, endTop := et, parseState := ps, err := false }
        false depth (out ++ 0x22 :: tail) =
      (appendIndentLoop { step := .stateEndValue, endTop := et, parseState := ps, err := false }
        false depth tail).map (fun o => out ++ 0x22 :: o) := by
  induction q with
  | nil => simp [appendIndentLoop, scanner.run]
  | @safe c b src out hs q ih =>
    have hb : 0x20 ≤ b ∧ b ≠ 0x22 ∧ b ≠ 0x5c := by
      simp [htmlSafeSet] at hs; omega
    rw [List.cons_append, appendIndentLoop_inString_byte _ _ _ _ _ hb.1 hb.2.1 hb.2.2, ih]
    simp [Option.map_map, Function.comp_def]
  | @short c b e src out he q ih =>
    have : e = 0x5c ∨ e = 0x22 ∨ e = 0x62 ∨ e = 0x66 ∨ e = 0x6e ∨ e = 0x72 ∨ e = 0x74 := by
      simp at he; omega
    rcases this with rfl | rfl | rfl | rfl | rfl | rfl | rfl <;>
      simp [appendIndentLoop, scanner.run, ih, Option.map_map, Function.comp_def]
  | @u00 c b src out hb q ih =>
    simp only [List.cons_append]
    rw [appendIndentLoop_inString_u4 _ _ _ _ _ _ _ _ (by decide) (by decide)
      (isHexDigit_hex (b / 16) (by omega)) (isHexDigit_hex (b % 16) (by omega)), ih]
    simp [Option.map_map, Function.comp_def]
  | @invalid b src out q ih =>
    simp only [List.cons_append]
    rw [appendIndentLoop_inString_u4 _ _ _ _ _ _ _ _ (by decide) (by decide)
      (by decide) (by decide), ih]
    simp [Option.map_map, Function.comp_def]
  | @sep c d src out hd q ih =>
    have : d = 0 ∨ d = 1 := by omega
    simp only [List.cons_append]
    rw [appendIndentLoop_inString_u4 _ _ _ _ _ _ _ _ (by decide) (by decide)
      (by decide) (by rcases this with rfl | rfl <;> decide), ih]
    simp [Option.map_map, Function.comp_def]
  | @multi c pre src out hp q ih =>
    induction pre with
    | nil => simpa using ih
    | cons x pre ihp =>
      have hx : 0x80 ≤ x := hp x (by simp)
      rw [List.cons_append, List.cons_append,
        appendIndentLoop_inString_byte _ _ _ _ _ (by omega) (by omega) (by omega),
        ihp (fun y hy => hp y (by simp [hy]))]
      simp [Option.map_map, Function.comp_def]

theorem appendIndentLoop_string (step : Step) (hstep : step = .stateBeginValue ∨ step = .stateBeginString)
    (et : Bool) (ps : List ParseState) (depth : Nat) (s tail : Bytes) :
    appendIndentLoop { step := step, endTop := et, parseState := ps, err := false }
        false depth (appendString s ++ tail) =
      (appendIndentLoop { step := .stateEndValue, endTop := et, parseState := ps, err := false }
        false depth tail).map (fun o => appendString s ++ o) := by
  have q := appendIndentLoop_quoted (appendString_quoted false s (by simp)) et ps depth tail
  rcases hstep with rfl | rfl <;>
    simp [appendString, appendIndentLoop, scanner.run, stateBeginValue, stateBeginString, isSpace,
      q, Option.map_map, Function.comp_def]

theorem appendIndentLoop_plain (scan scan1 : scanner) (v : Scan) (depth c : Nat) (src : Bytes)
    (hrun : scan.run c = (scan1, v))
    (hv : v = .scanContinue ∨ v = .scanBeginLiteral ∨ v = .scanEnd)
    (hc : c ≠ 0x7b ∧ c ≠ 0x5b ∧ c ≠ 0x2c ∧ c ≠ 0x3a ∧ c ≠ 0x7d ∧ c ≠ 0x5d) :
    appendIndentLoop scan false depth (c :: src) =
      (appendIndentLoop scan1 false depth src).map (fun o => c :: o) := by
  obtain ⟨h1, h2, h3, h4, h5, h6⟩ := hc
  rcases hv with rfl | rfl | rfl <;> simp [appendIndentLoop, hrun, h1, h2, h3, h4, h5, h6]

theorem appendIndentLoop_value (et : Bool) (ps : List ParseState) (depth : Nat) (v : GoAny)
    (tail : Bytes) :
    appendIndentLoop { step := .stateBeginValue, endTop := et, parseState := ps, err := false }
        false depth (encodeValue v ++ tail) =
      (appendIndentLoop { step := .stateEndValue, endTop := et, parseState := ps, err := false }
        false depth tail).map (fun o => encodeValue v ++ o) := by
  rcases v with s | b
  · exact appendIndentLoop_string _ (Or.inl rfl) et ps depth s tail
  · cases b
    · simp only [encodeValue, lit_false, List.cons_append, List.nil_append]
      rw [appendIndentLoop_plain _ ⟨.stateF, et, ps, false⟩ .scanBeginLiteral _ _ _
          (by simp [scanner.run, stateBeginValue, isSpace, expectByte]) (by simp) (by decide),
        appendIndentLoop_plain _ ⟨.stateFa, et, ps, false⟩ .scanContinue _ _ _
          (by simp [scanner.run, stateBeginValue, isSpace, expectByte]) (by simp) (by decide),
        appendIndentLoop_plain _ ⟨.stateFal, et, ps, false⟩ .scanContinue _ _ _
          (by simp [scanner.run, stateBeginValue, isSpace, expectByte]) (by simp) (by decide),
        appendIndentLoop_plain _ ⟨.stateFals, et, ps, false⟩ .scanContinue _ _ _
          (by simp [scanner.run, stateBeginValue, isSpace, expectByte]) (by simp) (by decide),
        appendIndentLoop_plain _ ⟨.stateEndValue, et, ps, false⟩ .scanContinue _ _ _
          (by simp [scanner.run, stateBeginValue, isSpace, expectByte]) (by simp) (by decide)]
      simp [Option.map_map, Function.comp_def]
    · simp only [encodeValue, lit_true, List.cons_append, List.nil_append]
      rw [appendIndentLoop_plain _ ⟨.stateT, et, ps, false⟩ .scanBeginLiteral _ _ _
          (by simp [scanner.run, stateBeginValue, isSpace, expectByte]) (by simp) (by decide),
        appendIndentLoop_plain _ ⟨.stateTr, et, ps, false⟩ .scanContinue _ _ _
          (by simp [scanner.run, stateBeginValue, isSpace, expectByte]) (by simp) (by decide),
        appendIndentLoop_plain _ ⟨.stateTru, et, ps, false⟩ .scanContinue _ _ _
          (by simp [scanner.run, stateBeginValue, isSpace, expectByte]) (by simp) (by decide),
        appendIndentLoop_plain _ ⟨.stateEndValue, et, ps, false⟩ .scanContinue _ _ _
          (by simp [scanner.run, stateBeginValue, isSpace, expectByte]) (by simp) (by decide)]
      simp [Option.map_map, Function.comp_def]

theorem moreLines_cons (kv : Bytes × GoAny) (kvs : GoMap) :
    moreLines (kv :: kvs) = 0x2c :: 0x0a :: 0x20 :: 0x20 ::
      (appendString kv.1 ++ (lit ": " ++ (encodeValue kv.2 ++ moreLines kvs))) := by
  simp only [moreLines, memberLine, lit_comma_nl, lit_indent, List.append_assoc,
    List.cons_append, List.nil_append]

theorem indentedObject_cons (kv : Bytes × GoAny) (kvs : GoMap) :
    indentedObject (kv :: kvs) = 0x7b :: 0x0a :: 0x20 :: 0x20 ::
      (appendString kv.1 ++ (lit ": " ++ (encodeValue kv.2 ++
        (moreLines kvs ++ [0x0a, 0x7d, 0x0a])))) := by
  simp only [indentedObject, memberLine, lit_open_nl, lit_indent, lit_nl_close_nl,
    List.append_assoc, List.cons_append, List.nil_append]

theorem appendIndentLoop_members (kvs : GoMap) :
    appendIndentLoop ⟨.stateEndValue, false, [.parseObjectValue], false⟩ false 1
        (encodeMembers false kvs ++ [0x7d, 0x0a]) =
      some (moreLines kvs ++ [0x0a, 0x7d, 0x0a]) := by
  induction kvs with
  | nil =>
    decide
  | cons kv kvs ih =>
    obtain ⟨k, v⟩ := kv
    simp only [encodeMembers, List.append_assoc, List.cons_append, List.nil_append,
      Bool.false_eq_true, if_false]
    have hcomma : ∀ src, appendIndentLoop ⟨.stateEndValue, false, [.parseObjectValue], false⟩
        false 1 (0x2c :: src) =
        (appendIndentLoop ⟨.stateBeginString, false, [.parseObjectKey], false⟩ false 1 src).map
          (fun o => 0x2c :: 0x0a :: 0x20 :: 0x20 :: o) := by
      intro src
      simp [appendIndentLoop, scanner.run, stateEndValue, isSpace, appendNewline]
    have hcolon : ∀ src, appendIndentLoop ⟨.stateEndValue, false, [.parseObjectKey], false⟩
        false 1 (0x3a :: src) =
        (appendIndentLoop ⟨.stateBeginValue, false, [.parseObjectValue], false⟩ false 1 src).map
          (fun o => 0x3a :: 0x20 :: o) := by
      intro src
      simp [appendIndentLoop, scanner.run, stateEndValue, isSpace]
    rw [hcomma, appendIndentLoop_string _ (Or.inr rfl), hcolon, appendIndentLoop_value, ih,
      moreLines_cons]
    simp [lit_colon_sp]

theorem appendIndent_marshal (kvs : GoMap) :
    appendIndentLoop newScanner false 0 (0x7b :: (encodeMembers true kvs ++ [0x7d]) ++ [0x0a]) =
      some (indentedObject kvs) := by
  rcases kvs with _ | ⟨⟨k, v⟩, kvs⟩
  · decide
  · simp only [encodeMembers, List.append_assoc, List.cons_append, List.nil_append, if_true]
    have hopen : ∀ s src, appendIndentLoop newScanner false 0 (0x7b :: (appendString s ++ src)) =
        (appendIndentLoop ⟨.stateEndValue, false, [.parseObjectKey], false⟩ false 1 src).map
          (fun o => 0x7b :: 0x0a :: 0x20 :: 0x20 :: (appendString s ++ o)) := by
      intro s src
      have q := appendIndentLoop_quoted (appendString_quoted false s (by simp)) false
        [.parseObjectKey] 1 src
      simp [appendString, appendIndentLoop, newScanner, scanner.run, stateBeginValue,
        stateBeginString, isSpace, appendNewline, scanner.pushParseState, maxNestingDepth, q,
        Option.map_map, Function.comp_def]
    have hcolon : ∀ src, appendIndentLoop ⟨.stateEndValue, false, [.parseObjectKey], false⟩
        false 1 (0x3a :: src) =
        (appendIndentLoop ⟨.stateBeginValue, false, [.parseObjectValue], false⟩ false 1 src).map
          (fun o => 0x3a :: 0x20 :: o) := by
      intro src
      simp [appendIndentLoop, scanner.run, stateEndValue, isSpace]
    rw [hopen, hcolon, appendIndentLoop_value, appendIndentLoop_members, indentedObject_cons]
    simp [lit_colon_sp]

/-- The encoder never fails on a map of strings and booleans, and writes the entries
sorted by key, one per line. -/
theorem Encode_eq (m : GoMap) :
    Encode m = some (indentedObject (m.insertionSort keyLE)) := by
  unfold Encode appendIndent marshal
  exact appendIndent_marshal _

/-! ## Lemmas: the order of the keys -/

theorem stringsLE_refl (a : Bytes) : stringsLE a a = true := by
  induction a with
  | nil => rfl
  | cons x a ih => simp [stringsLE, ih]

theorem stringsLE_total (a b : Bytes) : stringsLE a b = true ∨ stringsLE b a = true := by
  induction a generalizing b with
  | nil => left; rfl
  | cons x a ih =>
    cases b with
    | nil => right; rfl
    | cons y b =>
      simp only [stringsLE, Bool.or_eq_true, decide_eq_true_eq, Bool.and_eq_true, beq_iff_eq]
      rcases Nat.lt_trichotomy x y with h | h | h
      · left; left; exact h
      · rcases ih b with h1 | h1
        · left; right; exact ⟨h, h1⟩
        · right; right; exact ⟨h.symm, h1⟩
      · right; left; exact h

theorem stringsLE_trans (a b c : Bytes) (h1 : stringsLE a b = true) (h2 : stringsLE b c = true) :
    stringsLE a c = true := by
  induction a generalizing b c with
  | nil => rfl
  | cons x a ih =>
    cases b with
    | nil => simp [stringsLE] at h1
    | cons y b =>
      cases c with
      | nil => simp [stringsLE] at h2
      | cons z c =>
        simp only [stringsLE, Bool.or_eq_true, decide_eq_true_eq, Bool.and_eq_true,
          beq_iff_eq] at h1 h2 ⊢
        rcases h1 with h1 | ⟨rfl, h1⟩
        · rcases h2 with h2 | ⟨rfl, h2⟩
          · left; omega
          · left; exact h1
        · rcases h2 with h2 | ⟨rfl, h2⟩
          · left; exact h2
          · right; exact ⟨rfl, ih b c h1 h2⟩

theorem stringsLE_antisymm (a b : Bytes) (h1 : stringsLE a b = true) (h2 : stringsLE b a = true) :
    a = b := by
  induction a generalizing b with
  | nil =>
    cases b with
    | nil => rfl
    | cons y b => simp [stringsLE] at h2
  | cons x a ih =>
    cases b with
    | nil => simp [stringsLE] at h1
    | cons y b =>
      simp only [stringsLE, Bool.or_eq_true, decide_eq_true_eq, Bool.and_eq_true,
        beq_iff_eq] at h1 h2
      rcases h1 with h1 | ⟨rfl, h1⟩
      · rcases h2 with h2 | ⟨rfl, h2⟩
        · omega
        · omega
      · rcases h2 with h2 | ⟨_, h2⟩
        · omega
        · rw [ih b h1 h2]

instance : IsTotal (Bytes × GoAny) keyLE := ⟨fun a b => stringsLE_total a.1 b.1⟩
instance : IsTrans (Bytes × GoAny) keyLE := ⟨fun a b c => stringsLE_trans a.1 b.1 c.1⟩

instance : IsAntisymm (Bytes × GoAny) keyLT :=
  ⟨fun a b h1 h2 => absurd (stringsLE_antisymm a.1 b.1 h1.1 h2.1) h1.2⟩

theorem sorted_keyLT (l : GoMap) (hs : l.Sorted keyLE) (hn : (l.map Prod.fst).Nodup) :
    l.Sorted keyLT := by
  have hn2 : l.Pairwise (fun a b => a.1 ≠ b.1) := by
    rw [List.Nodup, List.pairwise_map] at hn
    exact hn
  exact List.Pairwise.and hs hn2

theorem insertionSort_perm_eq (m m1 : GoMap) (hp : m1.Perm m) (hn : (m.map Prod.fst).Nodup) :
    m1.insertionSort keyLE = m.insertionSort keyLE := by
  have p1 : (m1.insertionSort keyLE).Perm (m.insertionSort keyLE) :=
    ((List.perm_insertionSort keyLE m1).trans hp).trans (List.perm_insertionSort keyLE m).symm
  have n : ((m.insertionSort keyLE).map Prod.fst).Nodup :=
    (((List.perm_insertionSort keyLE m).map Prod.fst).nodup_iff).mpr hn
  have n1 : ((m1.insertionSort keyLE).map Prod.fst).Nodup :=
    ((p1.map Prod.fst).nodup_iff).mpr n
  exact List.eq_of_perm_of_sorted p1
    (sorted_keyLT _ (List.sorted_insertionSort keyLE m1) n1)
    (sorted_keyLT _ (List.sorted_insertionSort keyLE m) n)

/-! ## Lemmas: decoding what the encoder wrote -/

theorem hexVal_hex (n : Nat) (h : n < 16) : hexVal (hex n) = some n := by
  unfold hexVal hex
  split_ifs <;> first | omega | (simp <;> omega)

theorem hex4_u00 (b : Nat) (hb : b < 0x80) :
    hex4 0x30 0x30 (hex (b / 16)) (hex (b % 16)) = some b := by
  have h0 : hexVal 0x30 = some 0 := by decide
  simp only [hex4, h0, hexVal_hex (b / 16) (by omega), hexVal_hex (b % 16) (by omega)]
  simp; omega

theorem unquoteLoop_quoted {c : Bool} {src out : Bytes} (q : Quoted c src out) (hc : c = true)
    (tail : Bytes) :
    ∀ fuel, out.length + 1 ≤ fuel → unquoteLoop fuel (out ++ 0x22 :: tail) = some (src, tail) := by
  induction q with
  | nil =>
    intro fuel hf
    obtain ⟨f, rfl⟩ : ∃ f, fuel = f + 1 := ⟨fuel - 1, by simp at hf; omega⟩
    simp [unquoteLoop]
  | @safe c b src out hs q ih =>
    intro fuel hf
    obtain ⟨f, rfl⟩ : ∃ f, fuel = f + 1 := ⟨fuel - 1, by simp at hf; omega⟩
    have hb : 0x20 ≤ b ∧ b ≠ 0x22 ∧ b ≠ 0x5c := by
      simp [htmlSafeSet] at hs; omega
    have h4 : ¬ b < 0x20 := by omega
    simp at hf
    simp [unquoteLoop, hb.2.1, hb.2.2, h4, ih hc f (by omega)]
  | @short c b e src out he q ih =>
    intro fuel hf
    obtain ⟨f, rfl⟩ : ∃ f, fuel = f + 1 := ⟨fuel - 1, by simp at hf; omega⟩
    simp at hf
    have := ih hc f (by omega)
    simp at he
    rcases he with ⟨rfl, rfl⟩ | ⟨rfl, rfl⟩ | ⟨rfl, rfl⟩ | ⟨rfl, rfl⟩ | ⟨rfl, rfl⟩ | ⟨rfl, rfl⟩ |
      ⟨rfl, rfl⟩ <;> simp [unquoteLoop, simpleEscape, this]
  | @u00 c b src out hb q ih =>
    intro fuel hf
    obtain ⟨f, rfl⟩ : ∃ f, fuel = f + 1 := ⟨fuel - 1, by simp at hf; omega⟩
    simp at hf
    have := ih hc f (by omega)
    have h1 : ¬ (0xD800 ≤ b ∧ b ≤ 0xDBFF) := by omega
    simp [unquoteLoop, hex4_u00 b hb, h1, this, utf8.EncodeRune, hb]
  | @invalid b src out q ih => simp at hc
  | @sep c d src out hd q ih =>
    intro fuel hf
    obtain ⟨f, rfl⟩ : ∃ f, fuel = f + 1 := ⟨fuel - 1, by simp at hf; omega⟩
    simp at hf
    have := ih hc f (by omega)
    have : d = 0 ∨ d = 1 := by omega
    rcases this with rfl | rfl
    · have h4 : hex4 0x32 0x30 0x32 0x38 = some 0x2028 := by decide
      have h5 : utf8.EncodeRune 0x2028 = [0xE2, 0x80, 0xA8] := by decide
      simp [unquoteLoop, h4, h5, this]
    · have h4 : hex4 0x32 0x30 0x32 0x39 = some 0x2029 := by decide
      have h5 : utf8.EncodeRune 0x2029 = [0xE2, 0x80, 0xA9] := by decide
      simp [unquoteLoop, h4, h5, this]
  | @multi c pre src out hp q ih =>
    induction pre with
    | nil => simpa using ih hc
    | cons x pre ihp =>
      intro fuel hf
      obtain ⟨f, rfl⟩ : ∃ f, fuel = f + 1 := ⟨fuel - 1, by simp at hf; omega⟩
      simp at hf
      have hx : 0x80 ≤ x := hp x (by simp)
      have h1 : x ≠ 0x22 := by omega
      have h2 : x ≠ 0x5c := by omega
      have h3 : ¬ x < 0x20 := by omega
      have := ihp (fun y hy => hp y (by simp [hy])) f (by simp; omega)
      rw [List.append_assoc] at this
      simp [unquoteLoop, h1, h2, h3, this]
theorem unquote_appendString (s tail : Bytes) (h : ValidString s = true) :
    unquote (appendStringLoop s.length s ++ 0x22 :: tail) = some (s, tail) :=
  unquoteLoop_quoted (appendString_quoted true s (fun _ => h)) rfl tail _ (by simp)

theorem parseValue_encodeValue (v : GoAny) (hv : validValue v = true) (fuel : Nat) (tail : Bytes) :
    parseValue (fuel + 1) (0x20 :: (encodeValue v ++ tail)) = some (toJSONValue v, tail) := by
  rcases v with s | b
  · simp only [validValue] at hv
    simp [parseValue, skipWS, encodeValue, appendString, unquote_appendString s tail hv,
      toJSONValue]
  · cases b <;> simp only [encodeValue, lit_true, lit_false] <;>
      simp [parseValue, skipWS, toJSONValue]

theorem parseMembers_skip (fuel : Nat) (s : Bytes) :
    parseMembers fuel (0x0a :: 0x20 :: 0x20 :: s) = parseMembers fuel s := by
  cases fuel <;> simp [parseMembers, skipWS]

theorem parseMembers_step (k : Bytes) (v : GoAny) (hk : ValidString k = true)
    (hv : validValue v = true) (f : Nat) (rest : Bytes) :
    parseMembers (f + 2) (appendString k ++ (lit ": " ++ (encodeValue v ++ rest))) =
      match skipWS rest with
      | [] => none
      | sep :: rest4 =>
        if sep = 0x2c then
          (parseMembers (f + 1) rest4).map (fun p => ((k, toJSONValue v) :: p.1, p.2))
        else if sep = 0x7d then some ([(k, toJSONValue v)], rest4)
        else none := by
  rw [parseMembers]
  simp [skipWS, appendString, unquote_appendString k _ hk, lit_colon_sp,
    parseValue_encodeValue v hv]

theorem parseMembers_layout (kvs : GoMap) :
    ∀ (kv : Bytes × GoAny) (fuel : Nat) (tail : Bytes), kvs.length + 2 ≤ fuel →
      validMap (kv :: kvs) = true →
      parseMembers fuel (appendString kv.1 ++ (lit ": " ++ (encodeValue kv.2 ++
        (moreLines kvs ++ 0x0a :: 0x7d :: tail)))) =
      some (toJSONMembers (kv :: kvs), tail) := by
  induction kvs with
  | nil =>
    intro kv fuel tail hf hv
    obtain ⟨f, rfl⟩ : ∃ f, fuel = f + 2 := ⟨fuel - 2, by simp at hf; omega⟩
    obtain ⟨k, v⟩ := kv
    simp [validMap] at hv
    rw [parseMembers_step k v hv.1 hv.2]
    simp [moreLines, skipWS, toJSONMembers]
  | cons kv1 kvs ih =>
    intro kv fuel tail hf hv
    obtain ⟨f, rfl⟩ : ∃ f, fuel = f + 2 := ⟨fuel - 2, by simp at hf; omega⟩
    obtain ⟨k, v⟩ := kv
    simp [validMap] at hv
    have hv1 : validMap (kv1 :: kvs) = true := by
      simp [validMap]; exact hv.2
    have := ih kv1 (f + 1) tail (by simp at hf; omega) hv1
    rw [parseMembers_step k v hv.1.1 hv.1.2, moreLines_cons]
    simp only [List.append_assoc, List.cons_append, List.nil_append]
    simp [skipWS, parseMembers_skip, this, toJSONMembers]

theorem length_le_indentedObject (kvs : GoMap) :
    kvs.length + 2 ≤ (indentedObject kvs).length := by
  rcases kvs with _ | ⟨kv, kvs⟩
  · decide
  · have h : ∀ l : GoMap, l.length ≤ (moreLines l).length := by
      intro l
      induction l with
      | nil => simp
      | cons a l ih =>
        simp only [moreLines_cons, List.length_append, List.length_cons]
        omega
    have := h kvs
    simp only [indentedObject_cons, List.length_append, List.length_cons, List.length_nil]
    omega

theorem decode_indentedObject (kvs : GoMap) (hv : validMap kvs = true) :
    decode (indentedObject kvs) = some (.object (toJSONMembers kvs)) := by
  rcases kvs with _ | ⟨kv, kvs⟩
  · rfl
  · have hlen := length_le_indentedObject (kv :: kvs)
    have hm := parseMembers_layout kvs kv (indentedObject (kv :: kvs)).length [0x0a] (by
      simp at hlen ⊢; omega) hv
    rw [decode, parseValue]
    simp only [indentedObject_cons] at hm ⊢
    simp [skipWS, appendString] at hm ⊢
    rw [hm]
    simp [skipWS]
/-! ## Lemmas: the text `URL:` in the table output -/

theorem lit_URL : lit "URL:" = [0x55, 0x52, 0x4c, 0x3a] := by decide

theorem lines_shape (s : Bytes) :
    ∃ l0 ls, lines s = l0 :: ls ∧ l0 <+: s ∧ ∀ l ∈ ls, l <:+: s := by
  induction s with
  | nil => exact ⟨[], [], rfl, List.prefix_refl _, by simp⟩
  | cons c rest ih =>
    obtain ⟨l0, ls, hl, hp, hi⟩ := ih
    by_cases hc : c = 0x0a
    · refine ⟨[], l0 :: ls, by simp [lines, hc, hl], List.nil_prefix, ?_⟩
      intro l hm
      rcases List.mem_cons.mp hm with h | h
      · subst h; exact hp.isInfix.trans (List.infix_cons (List.infix_refl _))
      · exact (hi l h).trans (List.infix_cons (List.infix_refl _))
    · refine ⟨c :: l0, ls, by simp [lines, hc, hl], ?_, ?_⟩
      · exact (List.prefix_cons_inj c).mpr hp
      · intro l hm
        exact (hi l hm).trans (List.infix_cons (List.infix_refl _))

theorem sublist_of_mem_lines (s l : Bytes) (h : l ∈ lines s) : l <:+: s := by
  obtain ⟨l0, ls, hl, hp, hi⟩ := lines_shape s
  rw [hl] at h
  rcases List.mem_cons.mp h with h | h
  · subst h; exact hp.isInfix
  · exact hi l h

theorem not_hasLineWith (text out : Bytes) (h : ¬ text <:+: out) : ¬ hasLineWith text out := by
  rintro ⟨l, hl, ht⟩
  exact h (ht.trans (sublist_of_mem_lines out l hl))

theorem url_infix_cons (a : Nat) (l : Bytes) (ha : a ≠ 0x55) :
    [0x55, 0x52, 0x4c, 0x3a] <:+: a :: l ↔ [0x55, 0x52, 0x4c, 0x3a] <:+: l := by
  rw [List.infix_cons_iff, List.cons_prefix_cons]
  constructor
  · rintro (h | h)
    · exact absurd h.1.symm ha
    · exact h
  · exact Or.inr

theorem url_infix_append (v : Bytes) (c : Nat) (l : Bytes)
    (h1 : c ≠ 0x52) (h2 : c ≠ 0x4c) (h3 : c ≠ 0x3a)
    (h : [0x55, 0x52, 0x4c, 0x3a] <:+: v ++ c :: l) :
    [0x55, 0x52, 0x4c, 0x3a] <:+: v ∨ [0x55, 0x52, 0x4c, 0x3a] <:+: c :: l := by
  induction v with
  | nil => right; simpa using h
  | cons a v ih =>
    rw [List.cons_append, List.infix_cons_iff] at h
    rcases h with h | h
    · left
      rcases v with _ | ⟨x, _ | ⟨y, _ | ⟨z, t⟩⟩⟩
      · simp at h; omega
      · simp at h; omega
      · simp at h; omega
      · simp at h
        obtain ⟨rfl, rfl, rfl, rfl⟩ := h
        exact (List.prefix_append _ t).isInfix
    · rcases ih h with h | h
      · left; exact h.trans (List.infix_cons (List.infix_refl _))
      · right; exact h

theorem lit_header : lit "blog fetch (stub) -> out_dir=" =
    [98, 108, 111, 103, 32, 102, 101, 116, 99, 104, 32, 40, 115, 116, 117, 98, 41, 32, 45, 62,
      32, 111, 117, 116, 95, 100, 105, 114, 61] := by decide
theorem lit_analyze : lit " analyze=" = [32, 97, 110, 97, 108, 121, 122, 101, 61] := by decide
theorem lit_nl : lit "\n" = [10] := by decide
theorem lit_playlist : lit "  Playlist: " =
    [32, 32, 80, 108, 97, 121, 108, 105, 115, 116, 58, 32] := by decide

theorem url_not_infix_table (outDir playlist : Bytes) (analyze : Bool)
    (h1 : ¬ lit "URL:" <:+: outDir) (h2 : ¬ lit "URL:" <:+: playlist) :
    ¬ lit "URL:" <:+: lit "blog fetch (stub) -> out_dir=" ++ outDir ++ lit " analyze=" ++
        (if analyze then lit "true" else lit "false") ++ lit "\n" ++
        (lit "  Playlist: " ++ playlist ++ lit "\n") := by
  rw [lit_URL] at h1 h2 ⊢
  intro h
  have hend : ¬ [0x55, 0x52, 0x4c, 0x3a] <:+: [10] := by decide
  cases analyze <;>
  · simp only [lit_header, lit_analyze, lit_nl, lit_playlist, lit_true, lit_false,
      List.append_assoc, List.cons_append, List.nil_append, Bool.false_eq_true, if_false,
      if_true] at h
    simp (disch := decide) only [url_infix_cons] at h
    rcases url_infix_append _ _ _ (by decide) (by decide) (by decide) h with h | h
    · exact h1 h
    · simp (disch := decide) only [url_infix_cons] at h
      rcases url_infix_append _ _ _ (by decide) (by decide) (by decide) h with h | h
      · exact h2 h
      · exact hend h

/-! ## Lemmas: the layout of the JSON output -/

theorem le_hex (n : Nat) : 0x30 ≤ hex n := by
  unfold hex; split_ifs <;> omega

theorem quoted_bytes {c : Bool} {src out : Bytes} (q : Quoted c src out) :
    ∀ x ∈ out, 0x20 ≤ x := by
  induction q with
  | nil => simp
  | @safe c b src out hs q ih =>
    have hb : 0x20 ≤ b := by simp [htmlSafeSet] at hs; omega
    intro x hx
    rcases List.mem_cons.mp hx with h | h
    · omega
    · exact ih x h
  | @short c b e src out he q ih =>
    have : 0x20 ≤ e := by simp at he; omega
    intro x hx
    simp only [List.mem_cons] at hx
    rcases hx with h | h | h
    · omega
    · omega
    · exact ih x h
  | @u00 c b src out hb q ih =>
    have h1 := le_hex (b / 16)
    have h2 := le_hex (b % 16)
    intro x hx
    simp only [List.mem_cons] at hx
    rcases hx with h | h | h | h | h | h | h
    any_goals omega
    exact ih x h
  | @invalid b src out q ih =>
    intro x hx
    simp only [List.mem_cons] at hx
    rcases hx with h | h | h | h | h | h | h
    any_goals omega
    exact ih x h
  | @sep c d src out hd q ih =>
    intro x hx
    simp only [List.mem_cons] at hx
    rcases hx with h | h | h | h | h | h | h
    any_goals omega
    exact ih x h
  | @multi c pre src out hp q ih =>
    intro x hx
    rcases List.mem_append.mp hx with h | h
    · have := hp x h; omega
    · exact ih x h

/-- A quoted string holds no control character, in particular no line feed. -/
theorem appendString_bytes (s : Bytes) : ∀ x ∈ appendString s, 0x20 ≤ x := by
  intro x hx
  simp only [appendString, List.mem_cons, List.mem_append, List.mem_singleton,
    List.not_mem_nil, or_false] at hx
  rcases hx with h | h | h
  · omega
  · exact quoted_bytes (appendString_quoted false s (by simp)) x h
  · omega

theorem lines_of_no_lf (s : Bytes) (h : ∀ x ∈ s, x ≠ 0x0a) : lines s = [s] := by
  induction s with
  | nil => rfl
  | cons c s ih =>
    have hc : c ≠ 0x0a := h c (by simp)
    simp [lines, hc, ih (fun x hx => h x (by simp [hx]))]

theorem lines_append_lf (s t : Bytes) (h : ∀ x ∈ s, x ≠ 0x0a) :
    lines (s ++ 0x0a :: t) = s :: lines t := by
  induction s with
  | nil => simp [lines]
  | cons c s ih =>
    have hc : c ≠ 0x0a := h c (by simp)
    simp [lines, hc, ih (fun x hx => h x (by simp [hx]))]

theorem indentedObject_result (articleURL playlist outDir : Bytes) (analyze : Bool) :
    indentedObject
        [ (lit "analyze", .bool analyze),
          (lit "next_step", .string (lit "Phase 2 ingestion pipeline")),
          (lit "out_dir", .string outDir),
          (lit "playlist", .string playlist),
          (lit "status", .string (lit "stub")),
          (lit "url", .string articleURL) ] =
      lit "\x7b\n" ++
      lit "  \"analyze\": " ++ (if analyze then lit "true" else lit "false") ++ lit ",\n" ++
      lit "  \"next_step\": \"Phase 2 ingestion pipeline\",\n" ++
      lit "  \"out_dir\": " ++ appendString outDir ++ lit ",\n" ++
      lit "  \"playlist\": " ++ appendString playlist ++ lit ",\n" ++
      lit "  \"status\": \"stub\",\n" ++
      lit "  \"url\": " ++ appendString articleURL ++ lit "\n" ++
      lit "\x7d\n" := by
  have e1 : lit "  \"analyze\": " = lit "  " ++ (appendString (lit "analyze") ++ lit ": ") := by
    decide
  have e2 : lit "  \"next_step\": \"Phase 2 ingestion pipeline\",\n" =
      lit "  " ++ (appendString (lit "next_step") ++ (lit ": " ++
        (appendString (lit "Phase 2 ingestion pipeline") ++ lit ",\n"))) := by decide
  have e3 : lit "  \"out_dir\": " = lit "  " ++ (appendString (lit "out_dir") ++ lit ": ") := by
    decide
  have e4 : lit "  \"playlist\": " = lit "  " ++ (appendString (lit "playlist") ++ lit ": ") := by
    decide
  have e5 : lit "  \"status\": \"stub\",\n" =
      lit "  " ++ (appendString (lit "status") ++ (lit ": " ++
        (appendString (lit "stub") ++ lit ",\n"))) := by decide
  have e6 : lit "  \"url\": " = lit "  " ++ (appendString (lit "url") ++ lit ": ") := by
    decide
  have e7 : lit "\n\x7d\n" = lit "\n" ++ lit "\x7d\n" := by decide
  rw [e1, e2, e3, e4, e5, e6]
  cases analyze <;>
    simp only [indentedObject, moreLines, memberLine, encodeValue, e7, List.append_assoc,
      List.append_nil, Bool.false_eq_true, if_false, if_true]

theorem noLF_appendString (s : Bytes) : ∀ x ∈ appendString s, x ≠ 0x0a := by
  intro x hx
  have := appendString_bytes s x hx
  omega

theorem noLF_append (s t : Bytes) (hs : ∀ x ∈ s, x ≠ 0x0a) (ht : ∀ x ∈ t, x ≠ 0x0a) :
    ∀ x ∈ s ++ t, x ≠ 0x0a := by
  intro x hx
  rcases List.mem_append.mp hx with h | h
  · exact hs x h
  · exact ht x h

theorem lines_result (articleURL playlist outDir : Bytes) (analyze : Bool) :
    lines (lit "\x7b\n" ++
      lit "  \"analyze\": " ++ (if analyze then lit "true" else lit "false") ++ lit ",\n" ++
      lit "  \"next_step\": \"Phase 2 ingestion pipeline\",\n" ++
      lit "  \"out_dir\": " ++ appendString outDir ++ lit ",\n" ++
      lit "  \"playlist\": " ++ appendString playlist ++ lit ",\n" ++
      lit "  \"status\": \"stub\",\n" ++
      lit "  \"url\": " ++ appendString articleURL ++ lit "\n" ++
      lit "\x7d\n") =
    [ lit "\x7b",
      lit "  \"analyze\": " ++ (if analyze then lit "true" else lit "false") ++ lit ",",
      lit "  \"next_step\": \"Phase 2 ingestion pipeline\",",
      lit "  \"out_dir\": " ++ appendString outDir ++ lit ",",
      lit "  \"playlist\": " ++ appendString playlist ++ lit ",",
      lit "  \"status\": \"stub\",",
      lit "  \"url\": " ++ appendString articleURL,
      lit "\x7d",
      [] ] := by
  have e0 : lit "\x7b\n" = lit "\x7b" ++ [0x0a] := by decide
  have e1 : lit ",\n" = lit "," ++ [0x0a] := by decide
  have e2 : lit "  \"next_step\": \"Phase 2 ingestion pipeline\",\n" =
      lit "  \"next_step\": \"Phase 2 ingestion pipeline\"," ++ [0x0a] := by decide
  have e3 : lit "  \"status\": \"stub\",\n" = lit "  \"status\": \"stub\"," ++ [0x0a] := by decide
  have e4 : lit "\n" = [0x0a] := by decide
  have e5 : lit "\x7d\n" = lit "\x7d" ++ [0x0a] := by decide
  have n0 : ∀ x ∈ lit "\x7b", x ≠ 0x0a := by decide
  have n1 : ∀ x ∈ lit "  \"analyze\": " ++ (if analyze then lit "true" else lit "false") ++
      lit ",", x ≠ 0x0a := by cases analyze <;> decide
  have n2 : ∀ x ∈ lit "  \"next_step\": \"Phase 2 ingestion pipeline\",", x ≠ 0x0a := by decide
  have n3 : ∀ x ∈ lit "  \"out_dir\": " ++ appendString outDir ++ lit ",", x ≠ 0x0a :=
    noLF_append _ _ (noLF_append _ _ (by decide) (noLF_appendString _)) (by decide)
  have n4 : ∀ x ∈ lit "  \"playlist\": " ++ appendString playlist ++ lit ",", x ≠ 0x0a :=
    noLF_append _ _ (noLF_append _ _ (by decide) (noLF_appendString _)) (by decide)
  have n5 : ∀ x ∈ lit "  \"status\": \"stub\",", x ≠ 0x0a := by decide
  have n6 : ∀ x ∈ lit "  \"url\": " ++ appendString articleURL, x ≠ 0x0a :=
    noLF_append _ _ (by decide) (noLF_appendString _)
  have n7 : ∀ x ∈ lit "\x7d", x ≠ 0x0a := by decide
  have key : lit "\x7b\n" ++
      lit "  \"analyze\": " ++ (if analyze then lit "true" else lit "false") ++ lit ",\n" ++
      lit "  \"next_step\": \"Phase 2 ingestion pipeline\",\n" ++
      lit "  \"out_dir\": " ++ appendString outDir ++ lit ",\n" ++
      lit "  \"playlist\": " ++ appendString playlist ++ lit ",\n" ++
      lit "  \"status\": \"stub\",\n" ++
      lit "  \"url\": " ++ appendString articleURL ++ lit "\n" ++
      lit "\x7d\n" =
      lit "\x7b" ++ 0x0a ::
      ((lit "  \"analyze\": " ++ (if analyze then lit "true" else lit "false") ++ lit ",") ++
        0x0a ::
      (lit "  \"next_step\": \"Phase 2 ingestion pipeline\"," ++ 0x0a ::
      ((lit "  \"out_dir\": " ++ appendString outDir ++ lit ",") ++ 0x0a ::
      ((lit "  \"playlist\": " ++ appendString playlist ++ lit ",") ++ 0x0a ::
      (lit "  \"status\": \"stub\"," ++ 0x0a ::
      ((lit "  \"url\": " ++ appendString articleURL) ++ 0x0a ::
      (lit "\x7d" ++ 0x0a :: []))))))) := by
    rw [e0, e2, e3, e5, e4, e1]
    simp only [List.append_assoc, List.cons_append, List.nil_append]
  rw [key, lines_append_lf _ _ n0, lines_append_lf _ _ n1, lines_append_lf _ _ n2,
    lines_append_lf _ _ n3, lines_append_lf _ _ n4, lines_append_lf _ _ n5,
    lines_append_lf _ _ n6, lines_append_lf _ _ n7]
  rfl

/-! ## The fetch handler -/

open fetchCmd output

/-- The encoder's result on the handler's map: its entries laid out in key order. -/
theorem Encode_result (articleURL playlist outDir : Bytes) (analyze : Bool) :
    json.Encode (result articleURL playlist outDir analyze) =
      some (indentedObject
        [ (lit "analyze", .bool analyze),
          (lit "next_step", .string (lit "Phase 2 ingestion pipeline")),
          (lit "out_dir", .string outDir),
          (lit "playlist", .string playlist),
          (lit "status", .string (lit "stub")),
          (lit "url", .string articleURL) ]) := by
  rw [Encode_eq]
  rfl

/-- On a writer that accepts every buffer, discarded `Fprintf` calls write every buffer. -/
theorem Fprintfs_accepting {ω κ : Type} (Write : fetchCmd.Writer ω κ)
    (hacc : ∀ w p, (Write w p).2 = (p.length, none)) (ps : List Bytes) :
    ∀ w, Fprintfs Write w ps = ps.map Emission.bytes := by
  induction ps with
  | nil => intro w; rfl
  | cons p ps ih =>
    intro w
    have h := hacc w p
    rcases hw : Write w p with ⟨w1, n, e⟩
    rw [hw] at h
    simp only [Prod.mk.injEq] at h
    obtain ⟨hn, _⟩ := h
    simp only [Fprintfs, hw, List.map_cons, ih w1, hn, List.take_length]

/-- The writer `acceptAll` accepts every buffer in full and reports no error. -/
theorem acceptAll_accepts (w : Unit) (p : Bytes) : (acceptAll w p).2 = (p.length, none) := rfl

/-- On a writer that accepts every buffer the handler writes and builds what `RunE`
says, and returns `nil` or the YAML encoder's value exactly when `RunE` has no
error. -/
theorem RunEOn_accepting {α ε ω κ : Type} (Resolve : α → Except ε OutputFormat)
    (Write : fetchCmd.Writer ω κ) (hacc : ∀ w p, (Write w p).2 = (p.length, none)) (w : ω)
    (articleURL playlist outDir : Bytes) (analyze : Bool) (opts : α) :
    (RunEOn Resolve Write w articleURL playlist outDir analyze opts).stdout =
        (RunE Resolve articleURL playlist outDir analyze opts).stdout ∧
      (RunEOn Resolve Write w articleURL playlist outDir analyze opts).result =
        (RunE Resolve articleURL playlist outDir analyze opts).result ∧
      ((RunE Resolve articleURL playlist outDir analyze opts).err = none ↔
        ((RunEOn Resolve Write w articleURL playlist outDir analyze opts).ret = .nil ∨
          (RunEOn Resolve Write w articleURL playlist outDir analyze opts).ret =
            .yaml (result articleURL playlist outDir analyze))) := by
  unfold RunEOn RunE
  by_cases hne : articleURL = [] ∧ playlist = []
  · rw [if_pos hne, if_pos hne]; simp
  · rw [if_neg hne, if_neg hne]
    cases hr : Resolve opts with
    | error e => simp
    | ok resolved =>
      cases resolved
      · simp [Is, Fprintfs_accepting Write hacc]
        by_cases hu : articleURL = [] <;> by_cases hp : playlist = [] <;> simp [hu, hp]
      · simp only [Is, Encode_result]
        have h := hacc w (indentedObject
          [ (lit "analyze", .bool analyze),
            (lit "next_step", .string (lit "Phase 2 ingestion pipeline")),
            (lit "out_dir", .string outDir),
            (lit "playlist", .string playlist),
            (lit "status", .string (lit "stub")),
            (lit "url", .string articleURL) ])
        rcases hw : Write w (indentedObject
          [ (lit "analyze", .bool analyze),
            (lit "next_step", .string (lit "Phase 2 ingestion pipeline")),
            (lit "out_dir", .string outDir),
            (lit "playlist", .string playlist),
            (lit "status", .string (lit "stub")),
            (lit "url", .string articleURL) ]) with ⟨w1, n, e⟩
        rw [hw] at h
        simp only [Prod.mk.injEq] at h
        obtain ⟨hn, he⟩ := h
        subst hn he
        simp
      · simp [Is]
      · simp [Is]

/-- C1: the handler returns the usage error (message "provide --url or --playlist",
hint "blog fetch requires at least one source") exactly when both `url` and
`playlist` are empty, whatever the other flags and the output options are and
whatever the resolver would answer. -/
theorem C1_usage_error_iff_no_source {α ε : Type} (Resolve : α → Except ε OutputFormat)
    (articleURL playlist outDir : Bytes) (analyze : Bool) (opts : α) :
    (RunE Resolve articleURL playlist outDir analyze opts).err =
        some (.cli { Msg := "provide --url or --playlist",
                     Hint := "blog fetch requires at least one source" }) ↔
      (articleURL = [] ∧ playlist = []) := by
  unfold RunE
  constructor
  · intro h
    by_contra hne
    rw [if_neg hne] at h
    cases hr : Resolve opts with
    | error e => simp [hr] at h
    | ok resolved =>
      rw [hr] at h
      cases resolved <;> simp [Is, Encode_result] at h
  · intro h
    rw [if_pos h]

set_option maxRecDepth 100000 in
/-- C2 as stated fails: with `--url https://example.com/post --output json` on a
standard output that accepts nothing (a closed pipe, a full disk) the handler builds
the record but returns the error of the encoder's write, not success. -/
theorem C2_counterexample :
    (lit "https://example.com/post" ≠ [] ∨ ([] : Bytes) ≠ []) ∧
      Resolve "json" = .ok .OutputJSON ∧
      (RunEOn Resolve limited 0 (lit "https://example.com/post") []
        (lit "docs/research-external/blog") false "json").ret =
        .write "no space left on device" ∧
      (RunEOn Resolve limited 0 (lit "https://example.com/post") []
        (lit "docs/research-external/blog") false "json").ret ≠ .nil := by
  refine ⟨Or.inl (by decide), rfl, by rfl, ?_⟩
  have h : (RunEOn Resolve limited 0 (lit "https://example.com/post") []
      (lit "docs/research-external/blog") false "json").ret =
      .write "no space left on device" := by rfl
  rw [h]
  exact fun h => Returned.noConfusion h

/-- C2, amended: with a source given and an output format that resolves, the handler
has built the result map (exactly the six keys `url`, `playlist`, `out_dir`,
`analyze`, `status`, `next_step`, holding the flag values, "stub" and "Phase 2
ingestion pipeline"); it returns `nil` in table and quiet format; in JSON format it
returns `nil` when the encoder's write to standard output reports no error and that
error otherwise. -/
theorem C2_result_built {α ε ω κ : Type} (Resolve : α → Except ε OutputFormat)
    (Write : fetchCmd.Writer ω κ) (w : ω) (articleURL playlist outDir : Bytes) (analyze : Bool)
    (opts : α) (resolved : OutputFormat)
    (hsrc : articleURL ≠ [] ∨ playlist ≠ []) (hres : Resolve opts = .ok resolved) :
    (∃ r, (RunEOn Resolve Write w articleURL playlist outDir analyze opts).result = some r ∧
        (r.map Prod.fst).Perm [lit "url", lit "playlist", lit "out_dir", lit "analyze",
          lit "status", lit "next_step"] ∧
        r.lookup (lit "url") = some (.string articleURL) ∧
        r.lookup (lit "playlist") = some (.string playlist) ∧
        r.lookup (lit "out_dir") = some (.string outDir) ∧
        r.lookup (lit "analyze") = some (.bool analyze) ∧
        r.lookup (lit "status") = some (.string (lit "stub")) ∧
        r.lookup (lit "next_step") = some (.string (lit "Phase 2 ingestion pipeline"))) ∧
      ((resolved = .OutputTable ∨ resolved = .OutputQuiet) →
        (RunEOn Resolve Write w articleURL playlist outDir analyze opts).ret = .nil) ∧
      (resolved = .OutputJSON →
        ∃ b, json.Encode (result articleURL playlist outDir analyze) = some b ∧
          ((Write w b).2.2 = none →
            (RunEOn Resolve Write w articleURL playlist outDir analyze opts).ret = .nil) ∧
          (∀ e, (Write w b).2.2 = some e →
            (RunEOn Resolve Write w articleURL playlist outDir analyze opts).ret =
              .write e)) := by
  have hne : ¬ (articleURL = [] ∧ playlist = []) := by
    rintro ⟨h1, h2⟩; rcases hsrc with h | h <;> contradiction
  have hr : ∀ o : Run ε κ, o.result = some (result articleURL playlist outDir analyze) →
      ∃ r, o.result = some r ∧
        (r.map Prod.fst).Perm [lit "url", lit "playlist", lit "out_dir", lit "analyze",
          lit "status", lit "next_step"] ∧
        r.lookup (lit "url") = some (.string articleURL) ∧
        r.lookup (lit "playlist") = some (.string playlist) ∧
        r.lookup (lit "out_dir") = some (.string outDir) ∧
        r.lookup (lit "analyze") = some (.bool analyze) ∧
        r.lookup (lit "status") = some (.string (lit "stub")) ∧
        r.lookup (lit "next_step") = some (.string (lit "Phase 2 ingestion pipeline")) :=
    fun o ho => ⟨_, ho, List.Perm.refl _, rfl, rfl, rfl, rfl, rfl, rfl⟩
  unfold RunEOn
  rw [if_neg hne, hres]
  cases resolved
  · simp only [Is]
    exact ⟨hr _ rfl, fun _ => rfl, by simp⟩
  · simp only [Is, Encode_result]
    rcases hw : Write w (indentedObject
      [ (lit "analyze", .bool analyze),
        (lit "next_step", .string (lit "Phase 2 ingestion pipeline")),
        (lit "out_dir", .string outDir),
        (lit "playlist", .string playlist),
        (lit "status", .string (lit "stub")),
        (lit "url", .string articleURL) ]) with ⟨w1, n, e⟩
    cases e with
    | none =>
      refine ⟨hr _ rfl, by simp, fun _ => ⟨_, rfl, ?_, ?_⟩⟩
      · intro _; rfl
      · intro e he; rw [hw] at he; simp at he
    | some e0 =>
      refine ⟨hr _ rfl, by simp, fun _ => ⟨_, rfl, ?_, ?_⟩⟩
      · intro he; rw [hw] at he; simp at he
      · intro e he; rw [hw] at he; simp at he; subst he; rfl
  · simp only [Is]
    exact ⟨hr _ rfl, by simp, by simp⟩
  · simp only [Is]
    exact ⟨hr _ rfl, fun _ => rfl, by simp⟩

/-- C2 at `--url https://example.com/post --output json` on a standard output that
accepts every write. -/
theorem C2_witness :
    (∃ r, (RunEOn Resolve acceptAll () (lit "https://example.com/post") []
          (lit "docs/research-external/blog") false "json").result = some r ∧
        (r.map Prod.fst).Perm [lit "url", lit "playlist", lit "out_dir", lit "analyze",
          lit "status", lit "next_step"] ∧
        r.lookup (lit "url") = some (.string (lit "https://example.com/post")) ∧
        r.lookup (lit "playlist") = some (.string []) ∧
        r.lookup (lit "out_dir") = some (.string (lit "docs/research-external/blog")) ∧
        r.lookup (lit "analyze") = some (.bool false) ∧
        r.lookup (lit "status") = some (.string (lit "stub")) ∧
        r.lookup (lit "next_step") = some (.string (lit "Phase 2 ingestion pipeline"))) ∧
      ((OutputFormat.OutputJSON = .OutputTable ∨ OutputFormat.OutputJSON = .OutputQuiet) →
        (RunEOn Resolve acceptAll () (lit "https://example.com/post") []
          (lit "docs/research-external/blog") false "json").ret = .nil) ∧
      (OutputFormat.OutputJSON = .OutputJSON →
        ∃ b, json.Encode (result (lit "https://example.com/post") []
            (lit "docs/research-external/blog") false) = some b ∧
          ((acceptAll () b).2.2 = none →
            (RunEOn Resolve acceptAll () (lit "https://example.com/post") []
              (lit "docs/research-external/blog") false "json").ret = .nil) ∧
          (∀ e, (acceptAll () b).2.2 = some e →
            (RunEOn Resolve acceptAll () (lit "https://example.com/post") []
              (lit "docs/research-external/blog") false "json").ret = .write e)) :=
  C2_result_built Resolve acceptAll () (lit "https://example.com/post") []
    (lit "docs/research-external/blog") false "json" .OutputJSON (Or.inl (by decide)) rfl

/-- C3: in table format the bytes written are the summary line, then the URL line
if and only if `url` is non-empty, then the Playlist line if and only if `playlist`
is non-empty, and nothing else. -/
theorem C3_table_output {α ε : Type} (Resolve : α → Except ε OutputFormat)
    (articleURL playlist outDir : Bytes) (analyze : Bool) (opts : α)
    (hsrc : articleURL ≠ [] ∨ playlist ≠ []) (hres : Resolve opts = .ok .OutputTable) :
    written (RunE Resolve articleURL playlist outDir analyze opts).stdout =
      some (lit "blog fetch (stub) -> out_dir=" ++ outDir ++ lit " analyze=" ++
        (if analyze then lit "true" else lit "false") ++ lit "\n" ++
        (if articleURL ≠ [] then lit "  URL: " ++ articleURL ++ lit "\n" else []) ++
        (if playlist ≠ [] then lit "  Playlist: " ++ playlist ++ lit "\n" else [])) := by
  have hne : ¬ (articleURL = [] ∧ playlist = []) := by
    rintro ⟨h1, h2⟩; rcases hsrc with h | h <;> contradiction
  unfold RunE
  rw [if_neg hne, hres]
  simp only [Is, fmtBool]
  by_cases hu : articleURL = [] <;> by_cases hp : playlist = [] <;>
    simp [hu, hp, written]

/-- C3 at `--url https://example.com/post --playlist feed.xml --analyze`. -/
theorem C3_witness :
    written (RunE Resolve (lit "https://example.com/post") (lit "feed.xml")
        (lit "docs/research-external/blog") true "table").stdout =
      some (lit "blog fetch (stub) -> out_dir=" ++ lit "docs/research-external/blog" ++
        lit " analyze=" ++ (if true then lit "true" else lit "false") ++ lit "\n" ++
        (if lit "https://example.com/post" ≠ [] then
          lit "  URL: " ++ lit "https://example.com/post" ++ lit "\n" else []) ++
        (if lit "feed.xml" ≠ [] then lit "  Playlist: " ++ lit "feed.xml" ++ lit "\n"
          else [])) :=
  C3_table_output Resolve (lit "https://example.com/post") (lit "feed.xml")
    (lit "docs/research-external/blog") true "table" (Or.inl (by decide)) rfl

/-- C5: in quiet format the handler writes nothing to standard output and returns
no error, for every value of `url`, `playlist`, `out-dir` and `analyze` with a
source given. -/
theorem C5_quiet_writes_nothing {α ε : Type} (Resolve : α → Except ε OutputFormat)
    (articleURL playlist outDir : Bytes) (analyze : Bool) (opts : α)
    (hsrc : articleURL ≠ [] ∨ playlist ≠ []) (hres : Resolve opts = .ok .OutputQuiet) :
    (RunE Resolve articleURL playlist outDir analyze opts).stdout = [] ∧
      written (RunE Resolve articleURL playlist outDir analyze opts).stdout = some [] ∧
      (RunE Resolve articleURL playlist outDir analyze opts).err = none := by
  have hne : ¬ (articleURL = [] ∧ playlist = []) := by
    rintro ⟨h1, h2⟩; rcases hsrc with h | h <;> contradiction
  unfold RunE
  rw [if_neg hne, hres]
  simp [Is, written]

/-- C5 at `--playlist feed.xml --analyze --output quiet`. -/
theorem C5_witness :
    (RunE Resolve [] (lit "feed.xml") (lit "/tmp/x") true "quiet").stdout = [] ∧
      written (RunE Resolve [] (lit "feed.xml") (lit "/tmp/x") true "quiet").stdout =
        some [] ∧
      (RunE Resolve [] (lit "feed.xml") (lit "/tmp/x") true "quiet").err = none :=
  C5_quiet_writes_nothing Resolve [] (lit "feed.xml") (lit "/tmp/x") true "quiet"
    (Or.inr (by decide)) rfl

/-- C6: with a source given, the handler fails exactly when the resolver rejects the
output options; the error it returns is then the resolver's error unchanged, nothing
has been written and no result has been built. -/
theorem C6_resolve_error_iff {α ε : Type} (Resolve : α → Except ε OutputFormat)
    (articleURL playlist outDir : Bytes) (analyze : Bool) (opts : α)
    (hsrc : articleURL ≠ [] ∨ playlist ≠ []) :
    ((RunE Resolve articleURL playlist outDir analyze opts).err ≠ none ↔
        ∃ e, Resolve opts = .error e) ∧
      (∀ e, (RunE Resolve articleURL playlist outDir analyze opts).err = some (.resolve e) ↔
        Resolve opts = .error e) ∧
      (∀ e, Resolve opts = .error e →
        (RunE Resolve articleURL playlist outDir analyze opts).stdout = [] ∧
        (RunE Resolve articleURL playlist outDir analyze opts).result = none) := by
  have hne : ¬ (articleURL = [] ∧ playlist = []) := by
    rintro ⟨h1, h2⟩; rcases hsrc with h | h <;> contradiction
  unfold RunE
  rw [if_neg hne]
  cases hr : Resolve opts with
  | error e => simp
  | ok resolved => cases resolved <;> simp [Is, Encode_result]

/-- C6 at `--url https://example.com/post --output xml`. -/
theorem C6_witness :
    ((RunE Resolve (lit "https://example.com/post") [] (lit "docs/research-external/blog")
          false "xml").err ≠ none ↔ ∃ e, Resolve "xml" = .error e) ∧
      (∀ e, (RunE Resolve (lit "https://example.com/post") []
          (lit "docs/research-external/blog") false "xml").err = some (.resolve e) ↔
        Resolve "xml" = .error e) ∧
      (∀ e, Resolve "xml" = .error e →
        (RunE Resolve (lit "https://example.com/post") [] (lit "docs/research-external/blog")
          false "xml").stdout = [] ∧
        (RunE Resolve (lit "https://example.com/post") [] (lit "docs/research-external/blog")
          false "xml").result = none) :=
  C6_resolve_error_iff Resolve (lit "https://example.com/post") []
    (lit "docs/research-external/blog") false "xml" (Or.inl (by decide))

set_option maxRecDepth 100000 in
/-- C7 as stated fails on a standard output with room for 71 bytes, at
`--url https://example.com/post`: in table format the handler returns `nil` with only
the summary line written (the URL line is lost), and in JSON format it returns the
write error after 71 bytes of the rendering have been written. -/
theorem C7_counterexample :
    ((RunEOn Resolve limited 71 (lit "https://example.com/post") []
          (lit "docs/research-external/blog") false "table").ret = .nil ∧
        written (RunEOn Resolve limited 71 (lit "https://example.com/post") []
          (lit "docs/research-external/blog") false "table").stdout =
          some (lit "blog fetch (stub) -> out_dir=docs/research-external/blog analyze=false\n")) ∧
      ((RunEOn Resolve limited 71 (lit "https://example.com/post") []
          (lit "docs/research-external/blog") false "json").ret =
          .write "no space left on device" ∧
        written (RunEOn Resolve limited 71 (lit "https://example.com/post") []
          (lit "docs/research-external/blog") false "json").stdout =
          some (lit ("\x7b\n  \"analyze\": false,\n" ++
            "  \"next_step\": \"Phase 2 ingestion pipeline\",\n  \"o"))) := by
  refine ⟨⟨by rfl, by rfl⟩, by rfl, by rfl⟩

/-- C7, amended: whenever the handler returns the usage error or the resolver's error
nothing has been written to standard output; and on a standard output that accepts
every write in full the handler returns no write error, and when it returns `nil` the
rendering of the resolved format has been written in full: the lines of the table,
the encoder's whole output for JSON, nothing for quiet. -/
theorem C7_error_before_write {α ε ω κ : Type} (Resolve : α → Except ε OutputFormat)
    (Write : fetchCmd.Writer ω κ) (w : ω) (articleURL playlist outDir : Bytes) (analyze : Bool)
    (opts : α) :
    (∀ e, (RunEOn Resolve Write w articleURL playlist outDir analyze opts).ret = .cli e →
        (RunEOn Resolve Write w articleURL playlist outDir analyze opts).stdout = []) ∧
      (∀ e, (RunEOn Resolve Write w articleURL playlist outDir analyze opts).ret =
          .resolve e →
        (RunEOn Resolve Write w articleURL playlist outDir analyze opts).stdout = []) ∧
      ((∀ w p, (Write w p).2 = (p.length, none)) →
        (∀ e, (RunEOn Resolve Write w articleURL playlist outDir analyze opts).ret ≠
          .write e) ∧
        (RunEOn Resolve Write w articleURL playlist outDir analyze opts).ret ≠ .encode ∧
        ((RunEOn Resolve Write w articleURL playlist outDir analyze opts).ret = .nil →
          ∃ resolved, Resolve opts = .ok resolved ∧
            (resolved = .OutputTable →
              (RunEOn Resolve Write w articleURL playlist outDir analyze opts).stdout =
                [.bytes (lit "blog fetch (stub) -> out_dir=" ++ outDir ++ lit " analyze=" ++
                  (if analyze then lit "true" else lit "false") ++ lit "\n")] ++
                (if articleURL ≠ [] then [.bytes (lit "  URL: " ++ articleURL ++ lit "\n")]
                  else []) ++
                (if playlist ≠ [] then
                  [.bytes (lit "  Playlist: " ++ playlist ++ lit "\n")] else [])) ∧
            (resolved = .OutputJSON →
              ∃ b, json.Encode (result articleURL playlist outDir analyze) = some b ∧
                (RunEOn Resolve Write w articleURL playlist outDir analyze opts).stdout =
                  [.bytes b]) ∧
            (resolved = .OutputQuiet →
              (RunEOn Resolve Write w articleURL playlist outDir analyze opts).stdout =
                []))) := by
  unfold RunEOn
  by_cases hne : articleURL = [] ∧ playlist = []
  · rw [if_pos hne]; simp
  · rw [if_neg hne]
    cases hr : Resolve opts with
    | error e => simp
    | ok resolved =>
      cases resolved
      · simp only [Is]
        refine ⟨by simp, by simp, fun hacc => ⟨by simp, by simp, fun _ => ?_⟩⟩
        refine ⟨.OutputTable, rfl, fun _ => ?_, by simp, by simp⟩
        rw [Fprintfs_accepting Write hacc]
        by_cases hu : articleURL = [] <;> by_cases hp : playlist = [] <;>
          simp [hu, hp, fmtBool]
      · simp only [Is, Encode_result]
        rcases hw : Write w (indentedObject
          [ (lit "analyze", .bool analyze),
            (lit "next_step", .string (lit "Phase 2 ingestion pipeline")),
            (lit "out_dir", .string outDir),
            (lit "playlist", .string playlist),
            (lit "status", .string (lit "stub")),
            (lit "url", .string articleURL) ]) with ⟨w1, n, e⟩
        refine ⟨?_, ?_, fun hacc => ?_⟩
        · cases e <;> simp
        · cases e <;> simp
        · have h := hacc w (indentedObject
            [ (lit "analyze", .bool analyze),
              (lit "next_step", .string (lit "Phase 2 ingestion pipeline")),
              (lit "out_dir", .string outDir),
              (lit "playlist", .string playlist),
              (lit "status", .string (lit "stub")),
              (lit "url", .string articleURL) ])
          rw [hw] at h
          simp only [Prod.mk.injEq] at h
          obtain ⟨hn, he⟩ := h
          subst hn he
          simp
      · simp [Is]
      · simp [Is]

set_option maxRecDepth 100000 in
/-- C8 as stated fails: with an empty `url`, the playlist "feed.xml" and the
`out-dir` value "/tmp/x", line feed, "  URL: https://example.com/post", line feed, the
table output has the line "  URL: https://example.com/post", so a line of it
contains "URL:". -/
theorem C8_counterexample :
    ∃ out, written (RunE Resolve [] (lit "feed.xml")
        (lit "/tmp/x\n  URL: https://example.com/post\n") false "table").stdout = some out ∧
      lit "  URL: https://example.com/post" ∈ lines out ∧
      hasLineWith (lit "URL:") out := by
  refine ⟨lit ("blog fetch (stub) -> out_dir=/tmp/x\n  URL: https://example.com/post\n" ++
    " analyze=false\n  Playlist: feed.xml\n"), by rfl, by decide, by decide⟩

/-- C8, amended: in table format with an empty `url` and a non-empty `playlist`, when
neither `out-dir` nor `playlist` contains the text "URL:", standard output contains
"out_dir=<out-dir> analyze=<analyze>" and "Playlist: <playlist>", and no line of it
contains "URL:". -/
theorem C8_table_playlist_only {α ε : Type} (Resolve : α → Except ε OutputFormat)
    (playlist outDir : Bytes) (analyze : Bool) (opts : α)
    (hp : playlist ≠ []) (hres : Resolve opts = .ok .OutputTable)
    (h1 : ¬ lit "URL:" <:+: outDir) (h2 : ¬ lit "URL:" <:+: playlist) :
    ∃ out, written (RunE Resolve [] playlist outDir analyze opts).stdout = some out ∧
      (lit "out_dir=" ++ outDir ++ lit " analyze=" ++
        (if analyze then lit "true" else lit "false")) <:+: out ∧
      (lit "Playlist: " ++ playlist) <:+: out ∧
      ¬ hasLineWith (lit "URL:") out := by
  have hne : ¬ (([] : Bytes) = [] ∧ playlist = []) := fun h => hp h.2
  have hw : written (RunE Resolve [] playlist outDir analyze opts).stdout =
      some (lit "blog fetch (stub) -> out_dir=" ++ outDir ++ lit " analyze=" ++
        (if analyze then lit "true" else lit "false") ++ lit "\n" ++
        (lit "  Playlist: " ++ playlist ++ lit "\n")) := by
    unfold RunE
    rw [if_neg hne, hres]
    simp [Is, fmtBool, hp, written]
  refine ⟨_, hw, ?_, ?_, ?_⟩
  · have e : lit "blog fetch (stub) -> out_dir=" =
        lit "blog fetch (stub) -> " ++ lit "out_dir=" := by decide
    refine ⟨lit "blog fetch (stub) -> ", lit "\n" ++ (lit "  Playlist: " ++ playlist ++ lit "\n"),
      ?_⟩
    rw [e]
    simp only [List.append_assoc]
  · have e : lit "  Playlist: " = lit "  " ++ lit "Playlist: " := by decide
    refine ⟨lit "blog fetch (stub) -> out_dir=" ++ outDir ++ lit " analyze=" ++
      (if analyze then lit "true" else lit "false") ++ lit "\n" ++ lit "  ", lit "\n", ?_⟩
    rw [e]
    simp only [List.append_assoc]
  · exact not_hasLineWith _ _ (url_not_infix_table outDir playlist analyze h1 h2)

/-- C8 at `--playlist feed.xml --out-dir /tmp/x`. -/
theorem C8_witness :
    ∃ out, written (RunE Resolve [] (lit "feed.xml") (lit "/tmp/x") false "table").stdout =
        some out ∧
      (lit "out_dir=" ++ lit "/tmp/x" ++ lit " analyze=" ++
        (if false then lit "true" else lit "false")) <:+: out ∧
      (lit "Playlist: " ++ lit "feed.xml") <:+: out ∧
      ¬ hasLineWith (lit "URL:") out :=
  C8_table_playlist_only Resolve (lit "feed.xml") (lit "/tmp/x") false "table" (by decide) rfl
    (by decide) (by decide)

/-- C10: in JSON format the handler performs one write: an opening brace on a line of
its own, then the six members in ascending key order (`analyze`, `next_step`,
`out_dir`, `playlist`, `status`, `url`), one per line behind exactly two spaces,
then the closing brace and a line feed.  The lines are spelled out a second time as
`lines` splits them: no string value breaks a line.  The encoder's output is the
same for every order in which the entries of the result map are enumerated. -/
theorem C10_json_layout {α ε : Type} (Resolve : α → Except ε OutputFormat)
    (articleURL playlist outDir : Bytes) (analyze : Bool) (opts : α)
    (hsrc : articleURL ≠ [] ∨ playlist ≠ []) (hres : Resolve opts = .ok .OutputJSON) :
    ∃ out, (RunE Resolve articleURL playlist outDir analyze opts).stdout = [.bytes out] ∧
      out =
        lit "\x7b\n" ++
        lit "  \"analyze\": " ++ (if analyze then lit "true" else lit "false") ++ lit ",\n" ++
        lit "  \"next_step\": \"Phase 2 ingestion pipeline\",\n" ++
        lit "  \"out_dir\": " ++ json.appendString outDir ++ lit ",\n" ++
        lit "  \"playlist\": " ++ json.appendString playlist ++ lit ",\n" ++
        lit "  \"status\": \"stub\",\n" ++
        lit "  \"url\": " ++ json.appendString articleURL ++ lit "\n" ++
        lit "\x7d\n" ∧
      lines out =
        [ lit "\x7b",
          lit "  \"analyze\": " ++ (if analyze then lit "true" else lit "false") ++ lit ",",
          lit "  \"next_step\": \"Phase 2 ingestion pipeline\",",
          lit "  \"out_dir\": " ++ json.appendString outDir ++ lit ",",
          lit "  \"playlist\": " ++ json.appendString playlist ++ lit ",",
          lit "  \"status\": \"stub\",",
          lit "  \"url\": " ++ json.appendString articleURL,
          lit "\x7d",
          [] ] ∧
      ∀ m : GoMap, m.Perm (result articleURL playlist outDir analyze) →
        json.Encode m = some out := by
  have hne : ¬ (articleURL = [] ∧ playlist = []) := by
    rintro ⟨h1, h2⟩; rcases hsrc with h | h <;> contradiction
  have henc := Encode_result articleURL playlist outDir analyze
  rw [indentedObject_result] at henc
  refine ⟨_, ?_, rfl, lines_result articleURL playlist outDir analyze, ?_⟩
  · unfold RunE
    rw [if_neg hne, hres]
    simp only [Is, henc]
    rfl
  · intro m hm
    have hn : ((result articleURL playlist outDir analyze).map Prod.fst).Nodup := by
      simp only [result, List.map_cons, List.map_nil]
      decide
    rw [← henc, Encode_eq, Encode_eq, insertionSort_perm_eq _ _ hm hn]

/-- C10 at `--url https://example.com/post --output json`. -/
theorem C10_witness :
    ∃ out, (RunE Resolve (lit "https://example.com/post") []
        (lit "docs/research-external/blog") false "json").stdout = [.bytes out] ∧
      out =
        lit "\x7b\n" ++
        lit "  \"analyze\": " ++ (if false then lit "true" else lit "false") ++ lit ",\n" ++
        lit "  \"next_step\": \"Phase 2 ingestion pipeline\",\n" ++
        lit "  \"out_dir\": " ++ json.appendString (lit "docs/research-external/blog") ++
          lit ",\n" ++
        lit "  \"playlist\": " ++ json.appendString [] ++ lit ",\n" ++
        lit "  \"status\": \"stub\",\n" ++
        lit "  \"url\": " ++ json.appendString (lit "https://example.com/post") ++ lit "\n" ++
        lit "\x7d\n" ∧
      lines out =
        [ lit "\x7b",
          lit "  \"analyze\": " ++ (if false then lit "true" else lit "false") ++ lit ",",
          lit "  \"next_step\": \"Phase 2 ingestion pipeline\",",
          lit "  \"out_dir\": " ++ json.appendString (lit "docs/research-external/blog") ++
            lit ",",
          lit "  \"playlist\": " ++ json.appendString [] ++ lit ",",
          lit "  \"status\": \"stub\",",
          lit "  \"url\": " ++ json.appendString (lit "https://example.com/post"),
          lit "\x7d",
          [] ] ∧
      ∀ m : GoMap, m.Perm (result (lit "https://example.com/post") []
          (lit "docs/research-external/blog") false) →
        json.Encode m = some out :=
  C10_json_layout Resolve (lit "https://example.com/post") []
    (lit "docs/research-external/blog") false "json" (Or.inl (by decide)) rfl

set_option maxRecDepth 1000000 in
/-- C4 as stated fails: for the one-byte `url` value 0xFF (not valid UTF-8) the JSON
written decodes to an object whose `url` member is the three bytes of U+FFFD, not the
flag value. -/
theorem C4_counterexample :
    ∃ out, written (RunE Resolve [0xFF] [] (lit "docs/research-external/blog")
        false "json").stdout = some out ∧
      JSON.decode out =
        some (expectedJSON [0xEF, 0xBF, 0xBD] [] (lit "docs/research-external/blog") false) ∧
      expectedJSON [0xEF, 0xBF, 0xBD] [] (lit "docs/research-external/blog") false ≠
        expectedJSON [0xFF] [] (lit "docs/research-external/blog") false := by
  refine ⟨lit ("\x7b\n  \"analyze\": false,\n" ++
      "  \"next_step\": \"Phase 2 ingestion pipeline\",\n" ++
      "  \"out_dir\": \"docs/research-external/blog\",\n  \"playlist\": \"\",\n" ++
      "  \"status\": \"stub\",\n  \"url\": \"\\ufffd\"\n\x7d\n"), ?_, ?_, ?_⟩
  · rfl
  · rfl
  · simp [expectedJSON]

/-- C4, amended: in JSON format, when the `url`, `playlist` and `out-dir` values are
valid UTF-8, the text written to standard output decodes as JSON to an object with
exactly the members `analyze`, `next_step`, `out_dir`, `playlist`, `status`, `url`,
holding the flag values, "stub" and "Phase 2 ingestion pipeline". -/
theorem C4_json_round_trip {α ε : Type} (Resolve : α → Except ε OutputFormat)
    (articleURL playlist outDir : Bytes) (analyze : Bool) (opts : α)
    (hsrc : articleURL ≠ [] ∨ playlist ≠ []) (hres : Resolve opts = .ok .OutputJSON)
    (hu : utf8.ValidString articleURL = true) (hp : utf8.ValidString playlist = true)
    (ho : utf8.ValidString outDir = true) :
    ∃ out, written (RunE Resolve articleURL playlist outDir analyze opts).stdout = some out ∧
      JSON.decode out = some (expectedJSON articleURL playlist outDir analyze) := by
  have hne : ¬ (articleURL = [] ∧ playlist = []) := by
    rintro ⟨h1, h2⟩; rcases hsrc with h | h <;> contradiction
  have henc := Encode_result articleURL playlist outDir analyze
  have k1 : utf8.ValidString (lit "analyze") = true := by decide
  have k2 : utf8.ValidString (lit "next_step") = true := by decide
  have k3 : utf8.ValidString (lit "out_dir") = true := by decide
  have k4 : utf8.ValidString (lit "playlist") = true := by decide
  have k5 : utf8.ValidString (lit "status") = true := by decide
  have k6 : utf8.ValidString (lit "url") = true := by decide
  have v1 : utf8.ValidString (lit "Phase 2 ingestion pipeline") = true := by decide
  have v2 : utf8.ValidString (lit "stub") = true := by decide
  have hd : JSON.decode (indentedObject
      [ (lit "analyze", .bool analyze),
        (lit "next_step", .string (lit "Phase 2 ingestion pipeline")),
        (lit "out_dir", .string outDir),
        (lit "playlist", .string playlist),
        (lit "status", .string (lit "stub")),
        (lit "url", .string articleURL) ]) =
      some (expectedJSON articleURL playlist outDir analyze) :=
    decode_indentedObject _ (by
      simp [validMap, validValue, k1, k2, k3, k4, k5, k6, v1, v2, hu, hp, ho])
  refine ⟨_, ?_, hd⟩
  unfold RunE
  rw [if_neg hne, hres]
  simp only [Is, henc]
  simp [written]

/-- C4 at `--url https://example.com/post --output json`, all other flags default. -/
theorem C4_witness :
    ∃ out, written (RunE Resolve (lit "https://example.com/post") []
        (lit "docs/research-external/blog") false "json").stdout = some out ∧
      JSON.decode out = some (expectedJSON (lit "https://example.com/post") []
        (lit "docs/research-external/blog") false) :=
  C4_json_round_trip Resolve (lit "https://example.com/post") []
    (lit "docs/research-external/blog") false "json" (Or.inl (by decide)) rfl
    (by decide) (by decide) (by decide)


end ArcBlog
